import Mathlib

/-!
Verification development for the knight's-tour solver in
`src/knight-09-symmetry.py` (class `KnightTourSolver`).

The solver is embedded shallowly:
* the sentinel board `board[y][x]` becomes a total function `Board = Int → Int → Int`
  (every access performed by the engine stays inside the allocated
  `(width+4) × (height+4)` grid, which is proved below, so extending the grid
  by `BLOCKED` outside is observationally faithful);
* the iterative `while` loops of `solve` and `_solve_symmetric` become a step
  function plus a fuel-indexed driver, so that every terminating run of the
  Python loop corresponds to a run with sufficiently large fuel;
* `random.shuffle` is an oracle parameter (a function `List Pos → List Pos`)
  which is consulted only when the `random_moves` flag is set;
* Python's stable `list.sort(key=...)` is modelled by a stable insertion sort.
-/

abbrev Pos : Type := Int × Int

abbrev Board : Type := Int → Int → Int

/-- Cell value for a square blocked as the mirror image of a visited square. -/
def MIRROR_BLOCKED : Int := -3

/-- Cell value for the sentinel border. -/
def BLOCKED : Int := -2

/-- Cell value for an empty (visitable) square. -/
def EMPTY : Int := -1

/-- The 8 knight offsets, in the order of `KnightTourSolver.BASE_KNIGHT_MOVES`. -/
def BASE_KNIGHT_MOVES : List Pos :=
  [(2, 1), (1, 2), (-1, 2), (-2, 1), (-2, -1), (-1, -2), (1, -2), (2, -1)]

inductive SearchMode where
  | dfs
  | centrifugal
  | warnsdorff
deriving DecidableEq

inductive SymmetryMode where
  | h
  | v
  | p
deriving DecidableEq

/-- The configuration handed to `KnightTourSolver.__init__` (minus the
debug/random flags, which do not influence the search result; the shuffled
move order enters separately as the `km` parameter of the search functions). -/
structure Config where
  width : Int
  height : Int
  start_x : Int
  start_y : Int
  search_mode : SearchMode
  closed : Bool
  symmetry : Option SymmetryMode
  limit : Option Int

/-- Physical x coordinate of the start square (`self.start_x = start_x + 2`). -/
def start_px (cfg : Config) : Int := cfg.start_x + 2

/-- Physical y coordinate of the start square (`self.start_y = start_y + 2`). -/
def start_py (cfg : Config) : Int := cfg.start_y + 2

/-- The sentinel board built in `__init__`: everything `BLOCKED`, then the
interiorCell `width × height` rectangle (offset by 2) reset to `EMPTY`. -/
def initBoard (w h : Int) : Board := fun y x =>
  if 2 ≤ y ∧ y < h + 2 ∧ 2 ≤ x ∧ x < w + 2 then EMPTY else BLOCKED

/-- A single assignment `board[y][x] = v`. -/
def setCell (b : Board) (y x v : Int) : Board :=
  fun y' x' => if y' = y ∧ x' = x then v else b y' x'

/-- Interior (playable) squares in physical coordinates. -/
def interiorCell (cfg : Config) (p : Pos) : Prop :=
  2 ≤ p.1 ∧ p.1 < cfg.width + 2 ∧ 2 ≤ p.2 ∧ p.2 < cfg.height + 2

instance (cfg : Config) (p : Pos) : Decidable (interiorCell cfg p) := by
  unfold interiorCell; infer_instance

/-- Physical bounds of the allocated `(width+4) × (height+4)` grid. -/
def physBounds (cfg : Config) (p : Pos) : Prop :=
  0 ≤ p.1 ∧ p.1 < cfg.width + 4 ∧ 0 ≤ p.2 ∧ p.2 < cfg.height + 4

/-- `mirror(mirror(p))`, `q = p + d` and the like all live on `Pos`. -/
def addOff (p d : Pos) : Pos := (p.1 + d.1, p.2 + d.2)

/-- Knight-move adjacency with respect to a move list. -/
def adjacent (km : List Pos) (p q : Pos) : Prop := ∃ d ∈ km, q = addOff p d

instance (km : List Pos) (p q : Pos) : Decidable (adjacent km p q) := by
  unfold adjacent; infer_instance

-- ------------------------------------------------------------
-- Stable sort, modelling Python's stable `list.sort(key=...)`
-- ------------------------------------------------------------

/-- Insert `a` in front of the first element whose key is not smaller;
keeps elements with equal keys in their original relative order. -/
def insertSorted {α κ : Type} [LinearOrder κ] (key : α → κ) (a : α) :
    List α → List α
  | [] => [a]
  | b :: l => if key b < key a then b :: insertSorted key a l else a :: b :: l

/-- Stable ascending sort by key.  Python's `list.sort` is stable and
ascending, and a stable ascending sort is uniquely determined, so this is a
faithful model of `candidates.sort(key=...)`. -/
def sortByKey {α κ : Type} [LinearOrder κ] (key : α → κ) : List α → List α
  | [] => []
  | a :: l => insertSorted key a (sortByKey key l)

-- ------------------------------------------------------------
-- Move ordering strategies
-- ------------------------------------------------------------

/-- `KnightTourSolver._ordered_moves_plain`.
Returns the produced move list together with the updated trial counter
(`self.stats.record(len(self.knight_moves))`). -/
def _ordered_moves_plain (km : List Pos) (b : Board) (trials : Int)
    (x y : Int) : List Pos × Int :=
  let moves := km.filterMap (fun d =>
    if b (y + d.2) (x + d.1) = EMPTY then some (x + d.1, y + d.2) else none)
  (moves, trials + km.length)

/-- `KnightTourSolver._distance_from_center` (exact rational arithmetic; the
Python floats involved are all exactly representable halves). -/
def _distance_from_center (w h : Int) (x y : Int) : ℚ :=
  ((x : ℚ) - (((w : ℚ) - 1) / 2 + 2)) ^ 2 + ((y : ℚ) - (((h : ℚ) - 1) / 2 + 2)) ^ 2

/-- `KnightTourSolver._ordered_moves_centrifugal`: candidates sorted by
distance from the center, farthest first (`key=lambda t: -t[0]`). -/
def _ordered_moves_centrifugal (w h : Int) (km : List Pos) (b : Board)
    (trials : Int) (x y : Int) : List Pos × Int :=
  let candidates := km.filterMap (fun d =>
    if b (y + d.2) (x + d.1) = EMPTY then
      some (_distance_from_center w h (x + d.1) (y + d.2), (x + d.1, y + d.2))
    else none)
  let sorted := sortByKey (fun t => -t.1) candidates
  (sorted.map (fun t => t.2), trials + km.length)

/-- `KnightTourSolver._warnsdorff_degree`: number of empty squares one knight
move away. -/
def _warnsdorff_degree (km : List Pos) (b : Board) (x y : Int) : Int :=
  ((km.filter (fun d => decide (b (y + d.2) (x + d.1) = EMPTY))).length : Int)

/-- `KnightTourSolver._ordered_moves_warnsdorff`: empty neighbours with their
onward degrees, sorted ascending by degree (`key=lambda t: t[0]`), and
`8 + 8·k` recorded trials. -/
def _ordered_moves_warnsdorff (km : List Pos) (b : Board) (trials : Int)
    (x y : Int) : List Pos × Int :=
  let candidates := km.filterMap (fun d =>
    if b (y + d.2) (x + d.1) = EMPTY then
      some (_warnsdorff_degree km b (x + d.1) (y + d.2), (x + d.1, y + d.2))
    else none)
  let trials' := trials + (km.length + candidates.length * km.length)
  let sorted := sortByKey (fun t => t.1) candidates
  (sorted.map (fun t => t.2), trials')

/-- The `self._move_generator` dispatch fixed in `__init__`. -/
def move_generator (cfg : Config) (km : List Pos) (b : Board) (trials : Int)
    (x y : Int) : List Pos × Int :=
  match cfg.search_mode with
  | .dfs => _ordered_moves_plain km b trials x y
  | .centrifugal => _ordered_moves_centrifugal cfg.width cfg.height km b trials x y
  | .warnsdorff => _ordered_moves_warnsdorff km b trials x y

/-- `KnightTourSolver._can_connect`. -/
def _can_connect (km : List Pos) (x1 y1 x2 y2 : Int) : Bool :=
  km.any (fun d => decide (x1 + d.1 = x2 ∧ y1 + d.2 = y2))

-- ------------------------------------------------------------
-- Mirror functions
-- ------------------------------------------------------------

/-- `KnightTourSolver._mirror_h`. -/
def _mirror_h (cfg : Config) (x y : Int) : Pos := (cfg.width + 3 - x, y)

/-- `KnightTourSolver._mirror_v`. -/
def _mirror_v (cfg : Config) (x y : Int) : Pos := (x, cfg.height + 3 - y)

/-- `KnightTourSolver._mirror_p`. -/
def _mirror_p (cfg : Config) (x y : Int) : Pos := (cfg.width + 3 - x, cfg.height + 3 - y)

/-- The `self._mirror` dispatch fixed in `__init__`. -/
def mirrorOf (cfg : Config) (m : SymmetryMode) (p : Pos) : Pos :=
  match m with
  | .h => _mirror_h cfg p.1 p.2
  | .v => _mirror_v cfg p.1 p.2
  | .p => _mirror_p cfg p.1 p.2

-- ------------------------------------------------------------
-- Search stack frames and the iterative DFS of `solve`
-- ------------------------------------------------------------

/-- The `Situation` dataclass: one stack frame of the explicit DFS stack. -/
structure Situation where
  x : Int
  y : Int
  move_num : Int
  moves : List Pos
  next_index : Nat

/-- Position of a frame. -/
def posOf (f : Situation) : Pos := (f.x, f.y)

/-- Result of executing one iteration of a `while stack:` loop body:
either the loop returns (`done`), or it continues with a new state. -/
inductive StepRes where
  | done : Bool → Board → Int → StepRes
  | next : Board → Int → List Situation → StepRes

/-- Steps 2/3 of the loop body of `solve`: try the next candidate of the top
frame, or backtrack when the frame is exhausted. -/
def plainAdvance (cfg : Config) (km : List Pos) (b : Board) (trials : Int)
    (cur : Situation) (rest : List Situation) : StepRes :=
  if h : cur.next_index < cur.moves.length then
    let c := cur.moves.get ⟨cur.next_index, h⟩
    let cur' : Situation := { cur with next_index := cur.next_index + 1 }
    let b' := setCell b c.2 c.1 (cur.move_num + 1)
    let gen := move_generator cfg km b' trials c.1 c.2
    .next b' gen.2
      ({ x := c.1, y := c.2, move_num := cur.move_num + 1,
         moves := gen.1, next_index := 0 } :: cur' :: rest)
  else
    .next (setCell b cur.y cur.x EMPTY) trials rest

/-- One iteration of the `while stack:` loop body of `solve`. -/
def plainStep (cfg : Config) (km : List Pos) (b : Board) (trials : Int)
    (stack : List Situation) : StepRes :=
  match stack with
  | [] => .done false b trials
  | cur :: rest =>
    if cur.move_num + 1 = cfg.width * cfg.height then
      if cfg.closed then
        if _can_connect km cur.x cur.y (start_px cfg) (start_py cfg) then
          .done true b trials
        else plainAdvance cfg km b trials cur rest
      else .done true b trials
    else plainAdvance cfg km b trials cur rest

/-- Fuel-indexed driver of the `while` loop of `solve`; `none` means the fuel
ran out before the loop returned. -/
def solveLoop (cfg : Config) (km : List Pos) :
    Nat → Board → Int → List Situation → Option (Bool × Board × Int)
  | 0, _, _, _ => none
  | fuel + 1, b, trials, stack =>
    match plainStep cfg km b trials stack with
    | .done r b' tr' => some (r, b', tr')
    | .next b' tr' st' => solveLoop cfg km fuel b' tr' st'

/-- The board and initial frame set up by `solve` before entering its loop. -/
def initPlainState (cfg : Config) (km : List Pos) :
    Board × Int × List Situation :=
  let b0 := setCell (initBoard cfg.width cfg.height) (start_py cfg) (start_px cfg) 0
  let gen := move_generator cfg km b0 0 (start_px cfg) (start_py cfg)
  (b0, gen.2,
    [{ x := start_px cfg, y := start_py cfg, move_num := 0,
       moves := gen.1, next_index := 0 }])

/-- `KnightTourSolver.solve`, returning the result together with the final
board and trial counter. -/
def solve (cfg : Config) (km : List Pos) (fuel : Nat) :
    Option (Bool × Board × Int) :=
  let s := initPlainState cfg km
  solveLoop cfg km fuel s.1 s.2.1 s.2.2

/-- Partial trace of the loop of `solve`: the state after `n` iterations
(frozen once the loop returns).  Used to reason about reachable states. -/
def iterPlain (cfg : Config) (km : List Pos) :
    Nat → Board × Int × List Situation → Board × Int × List Situation
  | 0, s => s
  | n + 1, s =>
    match plainStep cfg km s.1 s.2.1 s.2.2 with
    | .done _ _ _ => s
    | .next b' tr' st' => iterPlain cfg km n (b', tr', st')

-- ------------------------------------------------------------
-- Path extraction and symmetric renumbering
-- ------------------------------------------------------------

/-- `[lo, hi)` as a list of integers, in increasing order. -/
def intRange (lo hi : Int) : List Int :=
  (List.range (hi - lo).toNat).map (fun i : Nat => lo + (i : Int))

/-- The interiorCell cells in the scan order used by `get_path` and
`_renumber_symmetric_path` (`for y in ...: for x in ...`). -/
def scanCells (cfg : Config) : List Pos :=
  (intRange 2 (cfg.height + 2)).flatMap
    (fun y => (intRange 2 (cfg.width + 2)).map (fun x => (x, y)))

/-- Common scan-and-index pattern of `get_path` and the first half of
`_renumber_symmetric_path`: start from `[None] * bound` and write
`payload(cell)` at index `board[cell]` for every cell whose value lies in
`[0, bound)`. -/
def fillStep (b : Board) (bound : Int) (payload : Pos → Pos)
    (acc : List (Option Pos)) (p : Pos) : List (Option Pos) :=
  if 0 ≤ b p.2 p.1 ∧ b p.2 p.1 < bound then
    acc.set (b p.2 p.1).toNat (some (payload p))
  else acc

def fillByNumber (cells : List Pos) (b : Board) (bound : Int)
    (payload : Pos → Pos) : List (Option Pos) :=
  cells.foldl (fillStep b bound payload) (List.replicate bound.toNat none)

/-- `KnightTourSolver.get_path`: move number ↦ user coordinates. -/
def get_path (cfg : Config) (b : Board) : List (Option Pos) :=
  fillByNumber (scanCells cfg) b (cfg.width * cfg.height) (fun p => (p.1 - 2, p.2 - 2))

/-- `half_squares = (self.width * self.height) // 2`. -/
def half_squares (cfg : Config) : Int := cfg.width * cfg.height / 2

/-- The `for i, (x, y) in enumerate(path_a)` loop of
`_renumber_symmetric_path`, with the running index made explicit.  A `none`
entry is skipped; it is unreachable when the board holds a complete half
path, which is the only situation in which the solver calls this. -/
def writeMirrorNumbers (cfg : Config) (m : SymmetryMode) (half : Int) :
    List (Option Pos) → Int → Board → Board
  | [], _, bd => bd
  | entry :: rest, i, bd =>
    match entry with
    | some p =>
      let q := mirrorOf cfg m p
      writeMirrorNumbers cfg m half rest (i + 1) (setCell bd q.2 q.1 (half + i))
    | none => writeMirrorNumbers cfg m half rest (i + 1) bd

/-- `KnightTourSolver._renumber_symmetric_path`. -/
def _renumber_symmetric_path (cfg : Config) (m : SymmetryMode) (b : Board) :
    Board :=
  let path_a := fillByNumber (scanCells cfg) b (half_squares cfg) (fun p => p)
  writeMirrorNumbers cfg m (half_squares cfg) path_a 0 b

-- ------------------------------------------------------------
-- The symmetric search `_solve_symmetric`
-- ------------------------------------------------------------

/-- The `if self.limit and self.stats.trials >= self.limit` guard
(`self.limit` is truthy iff it is set and nonzero). -/
def limitHit (cfg : Config) (trials : Int) : Bool :=
  match cfg.limit with
  | none => false
  | some l => decide (l ≠ 0) && decide (l ≤ trials)

/-- The candidate/backtrack part of the loop body of `_solve_symmetric`. -/
def symAdvance (cfg : Config) (km : List Pos) (m : SymmetryMode) (b : Board)
    (trials : Int) (cur : Situation) (rest : List Situation) : StepRes :=
  if h : cur.next_index < cur.moves.length then
    let c := cur.moves.get ⟨cur.next_index, h⟩
    let cur' : Situation := { cur with next_index := cur.next_index + 1 }
    if b c.2 c.1 ≠ EMPTY then
      .next b trials (cur' :: rest)
    else
      let mc := mirrorOf cfg m c
      let b' := setCell (setCell b c.2 c.1 (cur.move_num + 1)) mc.2 mc.1 MIRROR_BLOCKED
      let gen := move_generator cfg km b' trials c.1 c.2
      .next b' gen.2
        ({ x := c.1, y := c.2, move_num := cur.move_num + 1,
           moves := gen.1, next_index := 0 } :: cur' :: rest)
  else
    if cur.move_num > 0 then
      let mc := mirrorOf cfg m (posOf cur)
      .next (setCell (setCell b cur.y cur.x EMPTY) mc.2 mc.1 EMPTY) trials rest
    else
      .next b trials rest

/-- One iteration of the `while stack:` loop body of `_solve_symmetric`. -/
def symStep (cfg : Config) (km : List Pos) (m : SymmetryMode) (b : Board)
    (trials : Int) (stack : List Situation) : StepRes :=
  match stack with
  | [] => .done false b trials
  | cur :: rest =>
    if limitHit cfg trials then .done false b trials
    else if cur.move_num + 1 = half_squares cfg then
      let sb := mirrorOf cfg m (start_px cfg, start_py cfg)
      if _can_connect km cur.x cur.y sb.1 sb.2 then
        .done true (_renumber_symmetric_path cfg m b) trials
      else symAdvance cfg km m b trials cur rest
    else symAdvance cfg km m b trials cur rest

/-- Fuel-indexed driver of the `while` loop of `_solve_symmetric`. -/
def symLoop (cfg : Config) (km : List Pos) (m : SymmetryMode) :
    Nat → Board → Int → List Situation → Option (Bool × Board × Int)
  | 0, _, _, _ => none
  | fuel + 1, b, trials, stack =>
    match symStep cfg km m b trials stack with
    | .done r b' tr' => some (r, b', tr')
    | .next b' tr' st' => symLoop cfg km m fuel b' tr' st'

/-- The board and initial frame set up by `_solve_symmetric` before its loop:
mark the start, block its mirror. -/
def initSymState (cfg : Config) (km : List Pos) (m : SymmetryMode) :
    Board × Int × List Situation :=
  let sb := mirrorOf cfg m (start_px cfg, start_py cfg)
  let b0 := setCell (setCell (initBoard cfg.width cfg.height)
    (start_py cfg) (start_px cfg) 0) sb.2 sb.1 MIRROR_BLOCKED
  let gen := move_generator cfg km b0 0 (start_px cfg) (start_py cfg)
  (b0, gen.2,
    [{ x := start_px cfg, y := start_py cfg, move_num := 0,
       moves := gen.1, next_index := 0 }])

/-- `KnightTourSolver._solve_symmetric`. -/
def _solve_symmetric (cfg : Config) (km : List Pos) (m : SymmetryMode)
    (fuel : Nat) : Option (Bool × Board × Int) :=
  let s := initSymState cfg km m
  symLoop cfg km m fuel s.1 s.2.1 s.2.2

/-- Partial trace of the loop of `_solve_symmetric`. -/
def iterSym (cfg : Config) (km : List Pos) (m : SymmetryMode) :
    Nat → Board × Int × List Situation → Board × Int × List Situation
  | 0, s => s
  | n + 1, s =>
    match symStep cfg km m s.1 s.2.1 s.2.2 with
    | .done _ _ _ => s
    | .next b' tr' st' => iterSym cfg km m n (b', tr', st')

-- ------------------------------------------------------------
-- Whole-run wrappers (what `main` observes)
-- ------------------------------------------------------------

/-- The knight-move order fixed in `__init__`: the canonical order, or the
result of consulting the shuffle oracle when `random_moves` is set. -/
def effectiveMoves (random_moves : Bool) (rng : List Pos → List Pos) : List Pos :=
  if random_moves then rng BASE_KNIGHT_MOVES else BASE_KNIGHT_MOVES

/-- The full run as observed by `main`: found flag, extracted path and final
trial count (`solver.solve()` / `solver._solve_symmetric()`, `get_path`,
`stats.trials`). -/
def runKnightTour (cfg : Config) (random_moves : Bool)
    (rng : List Pos → List Pos) (fuel : Nat) :
    Option (Bool × List (Option Pos) × Int) :=
  let km := effectiveMoves random_moves rng
  let r := match cfg.symmetry with
    | some m => _solve_symmetric cfg km m fuel
    | none => solve cfg km fuel
  r.map (fun t => (t.1, get_path cfg t.2.1, t.2.2))

/-- Projections of `solve` that avoid mentioning the (functional) board. -/
def solveFound (cfg : Config) (km : List Pos) (fuel : Nat) : Option Bool :=
  (solve cfg km fuel).map (fun r => r.1)

def solveTrials (cfg : Config) (km : List Pos) (fuel : Nat) : Option Int :=
  (solve cfg km fuel).map (fun r => r.2.2)

def solvePath (cfg : Config) (km : List Pos) (fuel : Nat) :
    Option (List (Option Pos)) :=
  (solve cfg km fuel).map (fun r => get_path cfg r.2.1)

def symFound (cfg : Config) (km : List Pos) (m : SymmetryMode) (fuel : Nat) :
    Option Bool :=
  (_solve_symmetric cfg km m fuel).map (fun r => r.1)

def symTrials (cfg : Config) (km : List Pos) (m : SymmetryMode) (fuel : Nat) :
    Option Int :=
  (_solve_symmetric cfg km m fuel).map (fun r => r.2.2)

def symPath (cfg : Config) (km : List Pos) (m : SymmetryMode) (fuel : Nat) :
    Option (List (Option Pos)) :=
  (_solve_symmetric cfg km m fuel).map (fun r => get_path cfg r.2.1)

-- ------------------------------------------------------------
-- Search invariant: the board is a pure function of the stack
-- ------------------------------------------------------------

/-- The board determined by a DFS stack in the plain search: each frame's
square carries its move number, everything else is as after `__init__`. -/
def boardOfStack (cfg : Config) (stack : List Situation) : Board := fun y x =>
  match stack.find? (fun f => decide (f.x = x ∧ f.y = y)) with
  | some f => f.move_num
  | none => initBoard cfg.width cfg.height y x

/-- The board determined by a DFS stack in the symmetric search: each frame's
square carries its move number, each frame's mirror square is
`MIRROR_BLOCKED`, everything else is as after `__init__`. -/
def boardOfSymStack (cfg : Config) (m : SymmetryMode) (stack : List Situation) :
    Board := fun y x =>
  match stack.find? (fun f => decide (f.x = x ∧ f.y = y)) with
  | some f => f.move_num
  | none =>
    if stack.any (fun f => decide (mirrorOf cfg m (posOf f) = (x, y))) then
      MIRROR_BLOCKED
    else initBoard cfg.width cfg.height y x

/-- The structural stack invariant: move numbers grow from 0 at the start
frame, consecutive frames are knight-adjacent, and frames sit on interior
squares. -/
def ChainOK (cfg : Config) (km : List Pos) : List Situation → Prop
  | [] => True
  | f :: rest =>
    match rest with
    | [] => f.x = start_px cfg ∧ f.y = start_py cfg ∧ f.move_num = 0 ∧
        interiorCell cfg (posOf f)
    | g :: _ => f.move_num = g.move_num + 1 ∧ adjacent km (posOf g) (posOf f) ∧
        interiorCell cfg (posOf f) ∧ ChainOK cfg km rest

/-- Candidates of a frame not yet consumed by its cursor. -/
def remaining (f : Situation) : List Pos := f.moves.drop f.next_index

/-- Frames' pending candidates are knight-adjacent and still empty on the
board that will be current when control returns to that frame.  (The plain
loop marks a taken candidate without re-checking emptiness, so this is what
keeps it from overwriting a visited square.) -/
def RemOK (cfg : Config) (km : List Pos) : List Situation → Prop
  | [] => True
  | f :: rest =>
    (∀ c ∈ remaining f, adjacent km (posOf f) c ∧
      boardOfStack cfg (f :: rest) c.2 c.1 = EMPTY) ∧ RemOK cfg km rest

/-- Invariant of the loop of `solve`. -/
structure PlainInv (cfg : Config) (km : List Pos) (b : Board)
    (stack : List Situation) : Prop where
  chain : ChainOK cfg km stack
  nodup : stack.Pairwise (fun f g => posOf f ≠ posOf g)
  boardEq : b = boardOfStack cfg stack
  rem : RemOK cfg km stack

/-- Invariant of the loop of `_solve_symmetric`: mirror squares never collide
with visited squares, and no emptiness bookkeeping for pending candidates is
needed because the symmetric loop re-checks emptiness when taking one.  (The
board equation is guarded: popping the start frame — which `_solve_symmetric`
does not unmark — empties the stack just before the loop reports failure.) -/
structure SymInv (cfg : Config) (km : List Pos) (m : SymmetryMode) (b : Board)
    (stack : List Situation) : Prop where
  chain : ChainOK cfg km stack
  nodup : stack.Pairwise (fun f g => posOf f ≠ posOf g)
  nomix : ∀ f ∈ stack, ∀ g ∈ stack, mirrorOf cfg m (posOf g) ≠ posOf f
  movesAdj : ∀ f ∈ stack, ∀ c ∈ f.moves, adjacent km (posOf f) c
  boardEq : stack ≠ [] → b = boardOfSymStack cfg m stack

/-- The tour encoded by a stack, bottom (start) first, in physical
coordinates. -/
def tourOf (stack : List Situation) : List Pos := stack.reverse.map posOf

/-- What identifies a frame as far as the board is concerned. -/
def frameCore (f : Situation) : Int × Int × Int := (f.x, f.y, f.move_num)

/-- The interior squares as a finite set (for the pigeonhole argument that a
full-length stack covers the whole board). -/
def interiorFinset (cfg : Config) : Finset Pos :=
  (Finset.Ico 2 (cfg.width + 2)) ×ˢ (Finset.Ico 2 (cfg.height + 2))

-- ------------------------------------------------------------
-- Auxiliary definitions used by the statements below
-- ------------------------------------------------------------

/-- The candidate triples built by `_ordered_moves_warnsdorff`. -/
def warnsdorffCands (km : List Pos) (b : Board) (x y : Int) :
    List (Int × Pos) :=
  km.filterMap (fun d =>
    if b (y + d.2) (x + d.1) = EMPTY then
      some (_warnsdorff_degree km b (x + d.1) (y + d.2), (x + d.1, y + d.2))
    else none)

/-- The parity preconditions that `main` validates before running a
symmetric search (`--symmetry` requires the reflected dimensions even). -/
def parityOK (cfg : Config) (m : SymmetryMode) : Prop :=
  match m with
  | .h => 2 ∣ cfg.width
  | .v => 2 ∣ cfg.height
  | .p => 2 ∣ cfg.width ∧ 2 ∣ cfg.height

instance (cfg : Config) (m : SymmetryMode) : Decidable (parityOK cfg m) := by
  unfold parityOK; cases m <;> infer_instance

/-- Witness for C10 at a concrete even-dimension configuration. -/
def cfg66 : Config := ⟨6, 6, 0, 0, .dfs, false, some .p, none⟩

/-- Outside the interior the board never reads `EMPTY` (what the sentinel
border establishes and every board write of the engine preserves). -/
def sentinelOK (cfg : Config) (b : Board) : Prop :=
  ∀ p : Pos, ¬ interiorCell cfg p → b p.2 p.1 ≠ EMPTY

/-- Witness for C8 at a concrete configuration and interior cell. -/
def cfg43w : Config := ⟨4, 3, 0, 0, .dfs, false, none, none⟩

/-- Witness for C1: a 4×3 board, plain DFS from the corner, finds an open
tour; its extracted 12-entry path satisfies all of the above. -/
def cfgC1 : Config := ⟨4, 3, 0, 0, .dfs, false, none, none⟩

/-- Witness for C3: a concrete closed-gate state, and a concrete successful
closed search (3×10, Warnsdorff, start (0,1)) whose path ends adjacent to its
start. -/
def cfgC3 : Config := ⟨3, 10, 0, 1, .warnsdorff, true, none, none⟩

/-- Witness for C2: a 3×10 board with vertical symmetry, plain DFS from
(1,1); the run succeeds and its 30-entry path is a mirror-symmetric cycle. -/
def cfgC2 : Config := ⟨3, 10, 1, 1, .dfs, false, some .v, none⟩

/-- C4 counterexample configuration: a 3×3 plain DFS with a trial limit
of 1. -/
def cfgC4 : Config := ⟨3, 3, 0, 0, .dfs, false, none, some 1⟩

/-- C4 witness configuration: a symmetric 3×10 run with limit 1. -/
def cfgC4s : Config := ⟨3, 10, 1, 1, .dfs, false, some .v, some 1⟩

/-- C7 counterexample configuration: a 3×3 plain DFS from the corner. -/
def cfgC7 : Config := ⟨3, 3, 0, 0, .dfs, false, none, none⟩

/-- C7 witness configuration: a symmetric 3×10 run with vertical mirror. -/
def cfgC7w : Config := ⟨3, 10, 1, 1, .dfs, false, some .v, none⟩

-- ------------------------------------------------------------
-- Lemmas about the stable sort
-- ------------------------------------------------------------

theorem mem_insertSorted {α κ : Type} [LinearOrder κ] (key : α → κ) (a c : α)
    (l : List α) : c ∈ insertSorted key a l ↔ c = a ∨ c ∈ l := by
  induction l with
  | nil => simp [insertSorted]
  | cons b l ih =>
    simp only [insertSorted]
    by_cases hb : key b < key a
    · simp only [if_pos hb, List.mem_cons, ih]
      tauto
    · simp only [if_neg hb, List.mem_cons]

theorem insertSorted_perm {α κ : Type} [LinearOrder κ] (key : α → κ) (a : α)
    (l : List α) : (insertSorted key a l).Perm (a :: l) := by
  induction l with
  | nil => simp [insertSorted]
  | cons b l ih =>
    simp only [insertSorted]
    by_cases hb : key b < key a
    · rw [if_pos hb]
      exact (ih.cons b).trans (List.Perm.swap a b l)
    · rw [if_neg hb]

theorem sortByKey_perm {α κ : Type} [LinearOrder κ] (key : α → κ)
    (l : List α) : (sortByKey key l).Perm l := by
  induction l with
  | nil => simp [sortByKey]
  | cons a l ih =>
    exact (insertSorted_perm key a (sortByKey key l)).trans (ih.cons a)

theorem mem_sortByKey {α κ : Type} [LinearOrder κ] (key : α → κ) (c : α)
    (l : List α) : c ∈ sortByKey key l ↔ c ∈ l :=
  (sortByKey_perm key l).mem_iff

theorem length_sortByKey {α κ : Type} [LinearOrder κ] (key : α → κ)
    (l : List α) : (sortByKey key l).length = l.length :=
  (sortByKey_perm key l).length_eq

theorem sorted_insertSorted {α κ : Type} [LinearOrder κ] (key : α → κ) (a : α)
    (l : List α) (h : List.Sorted (fun u v => key u ≤ key v) l) :
    List.Sorted (fun u v => key u ≤ key v) (insertSorted key a l) := by
  induction l with
  | nil => simp [insertSorted]
  | cons b l ih =>
    rw [List.sorted_cons] at h
    obtain ⟨hb, hl⟩ := h
    simp only [insertSorted]
    by_cases hc : key b < key a
    · rw [if_pos hc, List.sorted_cons]
      refine ⟨fun c hc' => ?_, ih hl⟩
      rcases (mem_insertSorted key a c l).mp hc' with rfl | hc'
      · exact le_of_lt hc
      · exact hb c hc'
    · rw [if_neg hc, List.sorted_cons]
      refine ⟨fun c hc' => ?_, List.sorted_cons.mpr ⟨hb, hl⟩⟩
      rcases List.mem_cons.mp hc' with rfl | hc'
      · exact le_of_not_lt hc
      · exact le_trans (le_of_not_lt hc) (hb c hc')

theorem sorted_sortByKey {α κ : Type} [LinearOrder κ] (key : α → κ)
    (l : List α) : List.Sorted (fun u v => key u ≤ key v) (sortByKey key l) := by
  induction l with
  | nil => simp [sortByKey]
  | cons a l ih => exact sorted_insertSorted key a _ ih

theorem filter_insertSorted {α κ : Type} [LinearOrder κ] (key : α → κ)
    (a : α) (n : κ) (l : List α) :
    (insertSorted key a l).filter (fun c => decide (key c = n)) =
      if key a = n then a :: l.filter (fun c => decide (key c = n))
      else l.filter (fun c => decide (key c = n)) := by
  induction l with
  | nil =>
    by_cases ha : key a = n <;> simp [insertSorted, List.filter_cons, ha]
  | cons b l ih =>
    simp only [insertSorted]
    by_cases hc : key b < key a
    · rw [if_pos hc]
      by_cases ha : key a = n
      · have hb : ¬(key b = n) := by
          rw [← ha]; exact ne_of_lt hc
        simp [List.filter_cons, hb, ih, ha]
      · simp only [List.filter_cons, ih, if_neg ha]
    · rw [if_neg hc]
      by_cases ha : key a = n <;> simp [List.filter_cons, ha]

/-- Stability of the sort: the elements with any fixed key value appear in
the same relative order as in the input. -/
theorem filter_sortByKey {α κ : Type} [LinearOrder κ] (key : α → κ) (n : κ)
    (l : List α) :
    (sortByKey key l).filter (fun c => decide (key c = n)) =
      l.filter (fun c => decide (key c = n)) := by
  induction l with
  | nil => rfl
  | cons a l ih =>
    simp only [sortByKey]
    rw [filter_insertSorted]
    by_cases ha : key a = n <;> simp [List.filter_cons, ha, ih]

-- ------------------------------------------------------------
-- Lemmas about the move-ordering strategies
-- ------------------------------------------------------------

theorem mem_plain_moves (km : List Pos) (b : Board) (tr : Int) (x y : Int)
    (c : Pos) :
    c ∈ (_ordered_moves_plain km b tr x y).1 ↔
      ∃ d ∈ km, c = (x + d.1, y + d.2) ∧ b (y + d.2) (x + d.1) = EMPTY := by
  simp only [_ordered_moves_plain, List.mem_filterMap]
  constructor
  · rintro ⟨d, hd, hif⟩
    by_cases hP : b (y + d.2) (x + d.1) = EMPTY
    · rw [if_pos hP] at hif
      exact ⟨d, hd, (Option.some_injective _ hif).symm, hP⟩
    · rw [if_neg hP] at hif
      exact absurd hif (Option.noConfusion)
  · rintro ⟨d, hd, rfl, hP⟩
    exact ⟨d, hd, by rw [if_pos hP]⟩

theorem warnsdorff_moves_eq (km : List Pos) (b : Board) (tr : Int)
    (x y : Int) :
    (_ordered_moves_warnsdorff km b tr x y).1 =
      (sortByKey (fun t => t.1) (warnsdorffCands km b x y)).map (fun t => t.2) :=
  rfl

theorem mem_warnsdorffCands (km : List Pos) (b : Board) (x y : Int)
    (t : Int × Pos) :
    t ∈ warnsdorffCands km b x y ↔
      ∃ d ∈ km, t.2 = (x + d.1, y + d.2) ∧ b (y + d.2) (x + d.1) = EMPTY ∧
        t.1 = _warnsdorff_degree km b (x + d.1) (y + d.2) := by
  simp only [warnsdorffCands, List.mem_filterMap]
  constructor
  · rintro ⟨d, hd, hif⟩
    by_cases hP : b (y + d.2) (x + d.1) = EMPTY
    · rw [if_pos hP] at hif
      obtain rfl := Option.some_injective _ hif
      exact ⟨d, hd, rfl, hP, rfl⟩
    · rw [if_neg hP] at hif
      exact absurd hif (Option.noConfusion)
  · rintro ⟨d, hd, h2, hP, h1⟩
    refine ⟨d, hd, ?_⟩
    rw [if_pos hP]
    obtain ⟨t1, t2⟩ := t
    simp only at h1 h2
    rw [h1, h2]

theorem warnsdorffCands_key (km : List Pos) (b : Board) (x y : Int)
    (t : Int × Pos) (ht : t ∈ warnsdorffCands km b x y) :
    t.1 = _warnsdorff_degree km b t.2.1 t.2.2 := by
  obtain ⟨d, _, h2, _, h1⟩ := (mem_warnsdorffCands km b x y t).mp ht
  rw [h2, h1]

theorem map_snd_warnsdorffCands (km : List Pos) (b : Board) (tr : Int)
    (x y : Int) :
    (warnsdorffCands km b x y).map (fun t => t.2) =
      (_ordered_moves_plain km b tr x y).1 := by
  simp only [warnsdorffCands, _ordered_moves_plain, List.map_filterMap]
  congr 1
  funext d
  by_cases hP : b (y + d.2) (x + d.1) = EMPTY <;> simp [hP]

theorem mem_warnsdorff_moves (km : List Pos) (b : Board) (tr : Int)
    (x y : Int) (c : Pos) :
    c ∈ (_ordered_moves_warnsdorff km b tr x y).1 ↔
      ∃ d ∈ km, c = (x + d.1, y + d.2) ∧ b (y + d.2) (x + d.1) = EMPTY := by
  rw [warnsdorff_moves_eq, ← mem_plain_moves km b tr x y c,
    ← map_snd_warnsdorffCands km b tr x y]
  constructor
  · rintro hc
    obtain ⟨t, ht, rfl⟩ := List.mem_map.mp hc
    exact List.mem_map_of_mem _ ((mem_sortByKey _ t _).mp ht)
  · rintro hc
    obtain ⟨t, ht, rfl⟩ := List.mem_map.mp hc
    exact List.mem_map_of_mem _ ((mem_sortByKey _ t _).mpr ht)

theorem mem_centrifugal_moves (w h : Int) (km : List Pos) (b : Board)
    (tr : Int) (x y : Int) (c : Pos) :
    c ∈ (_ordered_moves_centrifugal w h km b tr x y).1 ↔
      ∃ d ∈ km, c = (x + d.1, y + d.2) ∧ b (y + d.2) (x + d.1) = EMPTY := by
  simp only [_ordered_moves_centrifugal, List.mem_map]
  constructor
  · rintro ⟨t, ht, rfl⟩
    rw [mem_sortByKey] at ht
    obtain ⟨d, hd, hif⟩ := List.mem_filterMap.mp ht
    by_cases hP : b (y + d.2) (x + d.1) = EMPTY
    · rw [if_pos hP] at hif
      obtain rfl := Option.some_injective _ hif
      exact ⟨d, hd, rfl, hP⟩
    · rw [if_neg hP] at hif
      exact absurd hif (Option.noConfusion)
  · rintro ⟨d, hd, rfl, hP⟩
    refine ⟨(_distance_from_center w h (x + d.1) (y + d.2), (x + d.1, y + d.2)),
      ?_, rfl⟩
    rw [mem_sortByKey]
    exact List.mem_filterMap.mpr ⟨d, hd, by rw [if_pos hP]⟩

/-- Uniform membership characterisation for every strategy: a produced
candidate is exactly an empty square one knight offset away. -/
theorem mem_move_generator (cfg : Config) (km : List Pos) (b : Board)
    (tr : Int) (x y : Int) (c : Pos) :
    c ∈ (move_generator cfg km b tr x y).1 ↔
      ∃ d ∈ km, c = (x + d.1, y + d.2) ∧ b (y + d.2) (x + d.1) = EMPTY := by
  cases hmode : cfg.search_mode <;>
    simp only [move_generator, hmode]
  · exact mem_plain_moves km b tr x y c
  · exact mem_centrifugal_moves cfg.width cfg.height km b tr x y c
  · exact mem_warnsdorff_moves km b tr x y c

/-- Every strategy call raises the trial counter by at most
`|km| + |km|²`. -/
theorem move_generator_trials_le (cfg : Config) (km : List Pos) (b : Board)
    (tr : Int) (x y : Int) :
    tr ≤ (move_generator cfg km b tr x y).2 ∧
      (move_generator cfg km b tr x y).2 ≤
        tr + ((km.length : Int) + (km.length : Int) * km.length) := by
  have hlen : ∀ f : Pos → Option (Int × Pos),
      ((km.filterMap f).length : Int) ≤ (km.length : Int) := by
    intro f
    exact_mod_cast List.length_filterMap_le f km
  cases hmode : cfg.search_mode <;>
    simp only [move_generator, hmode, _ordered_moves_plain,
      _ordered_moves_centrifugal, _ordered_moves_warnsdorff]
  · constructor
    · have : (0 : Int) ≤ km.length := Int.natCast_nonneg _
      omega
    · have h1 : (0 : Int) ≤ (km.length : Int) * km.length :=
        mul_nonneg (Int.natCast_nonneg _) (Int.natCast_nonneg _)
      omega
  · constructor
    · have : (0 : Int) ≤ km.length := Int.natCast_nonneg _
      omega
    · have h1 : (0 : Int) ≤ (km.length : Int) * km.length :=
        mul_nonneg (Int.natCast_nonneg _) (Int.natCast_nonneg _)
      omega
  · constructor
    · have h0 : (0 : Int) ≤ km.length := Int.natCast_nonneg _
      have h1 : (0 : Int) ≤
          ((km.filterMap (fun d =>
            if b (y + d.2) (x + d.1) = EMPTY then
              some (_warnsdorff_degree km b (x + d.1) (y + d.2), (x + d.1, y + d.2))
            else none)).length : Int) := Int.natCast_nonneg _
      have h2 : (0 : Int) ≤
          ((km.filterMap (fun d =>
            if b (y + d.2) (x + d.1) = EMPTY then
              some (_warnsdorff_degree km b (x + d.1) (y + d.2), (x + d.1, y + d.2))
            else none)).length : Int) * km.length :=
        mul_nonneg h1 h0
      omega
    · have h1 := hlen (fun d =>
        if b (y + d.2) (x + d.1) = EMPTY then
          some (_warnsdorff_degree km b (x + d.1) (y + d.2), (x + d.1, y + d.2))
        else none)
      have h0 : (0 : Int) ≤ km.length := Int.natCast_nonneg _
      have h2 : ((km.filterMap (fun d =>
            if b (y + d.2) (x + d.1) = EMPTY then
              some (_warnsdorff_degree km b (x + d.1) (y + d.2), (x + d.1, y + d.2))
            else none)).length : Int) * km.length ≤
          (km.length : Int) * km.length :=
        mul_le_mul_of_nonneg_right h1 h0
      omega

-- ------------------------------------------------------------
-- Mirror lemmas
-- ------------------------------------------------------------

theorem base_reflect_x :
    ∀ d ∈ BASE_KNIGHT_MOVES, ((-d.1, d.2) : Pos) ∈ BASE_KNIGHT_MOVES := by
  decide

theorem base_reflect_y :
    ∀ d ∈ BASE_KNIGHT_MOVES, ((d.1, -d.2) : Pos) ∈ BASE_KNIGHT_MOVES := by
  decide

theorem base_reflect_xy :
    ∀ d ∈ BASE_KNIGHT_MOVES, ((-d.1, -d.2) : Pos) ∈ BASE_KNIGHT_MOVES := by
  decide

theorem base_neg :
    ∀ d ∈ BASE_KNIGHT_MOVES, ((-d.1, -d.2) : Pos) ∈ BASE_KNIGHT_MOVES := by
  decide

theorem mirrorOf_invol (cfg : Config) (m : SymmetryMode) (p : Pos) :
    mirrorOf cfg m (mirrorOf cfg m p) = p := by
  cases m <;>
    simp [mirrorOf, _mirror_h, _mirror_v, _mirror_p, Prod.ext_iff]

theorem mirrorOf_injective (cfg : Config) (m : SymmetryMode) :
    Function.Injective (mirrorOf cfg m) := by
  intro p q h
  have := congrArg (mirrorOf cfg m) h
  rwa [mirrorOf_invol, mirrorOf_invol] at this

theorem mirrorOf_interiorCell (cfg : Config) (m : SymmetryMode) (p : Pos)
    (hp : interiorCell cfg p) : interiorCell cfg (mirrorOf cfg m p) := by
  obtain ⟨h1, h2, h3, h4⟩ := hp
  cases m <;>
    simp [mirrorOf, _mirror_h, _mirror_v, _mirror_p, interiorCell] <;>
    omega

theorem adjacent_mirrorOf (cfg : Config) (m : SymmetryMode) (p q : Pos)
    (h : adjacent BASE_KNIGHT_MOVES p q) :
    adjacent BASE_KNIGHT_MOVES (mirrorOf cfg m p) (mirrorOf cfg m q) := by
  obtain ⟨d, hd, rfl⟩ := h
  cases m
  · refine ⟨(-d.1, d.2), base_reflect_x d hd, ?_⟩
    simp [mirrorOf, _mirror_h, addOff, Prod.ext_iff]
    omega
  · refine ⟨(d.1, -d.2), base_reflect_y d hd, ?_⟩
    simp [mirrorOf, _mirror_v, addOff, Prod.ext_iff]
    omega
  · refine ⟨(-d.1, -d.2), base_reflect_xy d hd, ?_⟩
    simp [mirrorOf, _mirror_p, addOff, Prod.ext_iff]
    omega

/-- If no interior cell is its own mirror image (which the parity
preconditions guarantee), a marked square and its blocked mirror never
coincide. -/
theorem mirrorOf_ne_self (cfg : Config) (m : SymmetryMode) (p : Pos)
    (hpar : match m with
      | .h => 2 ∣ cfg.width
      | .v => 2 ∣ cfg.height
      | .p => 2 ∣ cfg.width ∧ 2 ∣ cfg.height) :
    mirrorOf cfg m p ≠ p := by
  cases m <;>
    simp [mirrorOf, _mirror_h, _mirror_v, _mirror_p, Prod.ext_iff] <;>
    omega

theorem parityOK_ne_self (cfg : Config) (m : SymmetryMode) (p : Pos)
    (hpar : parityOK cfg m) : mirrorOf cfg m p ≠ p := by
  apply mirrorOf_ne_self
  cases m <;> exact hpar

-- ------------------------------------------------------------
-- C10: mirror functions are involutions, keep interior cells interior,
-- and preserve knight adjacency
-- ------------------------------------------------------------

/-- C10: each mirror function (`_mirror_h`, `_mirror_v`, `_mirror_p`, here
dispatched through `mirrorOf`) is an involution on physical coordinates;
when the reflected dimension(s) are even it maps interior cells to interior
cells; and two positions differ by a knight offset iff their mirror images
do. -/
theorem C10_mirror_properties (cfg : Config) (m : SymmetryMode) (p q : Pos)
    (hpar : parityOK cfg m) :
    mirrorOf cfg m (mirrorOf cfg m p) = p ∧
    (interiorCell cfg p → interiorCell cfg (mirrorOf cfg m p)) ∧
    (adjacent BASE_KNIGHT_MOVES p q ↔
      adjacent BASE_KNIGHT_MOVES (mirrorOf cfg m p) (mirrorOf cfg m q)) := by
  refine ⟨mirrorOf_invol cfg m p, mirrorOf_interiorCell cfg m p, ?_, ?_⟩
  · exact adjacent_mirrorOf cfg m p q
  · intro h
    have := adjacent_mirrorOf cfg m _ _ h
    rwa [mirrorOf_invol, mirrorOf_invol] at this

theorem C10_mirror_properties_witness :
    mirrorOf cfg66 .p (mirrorOf cfg66 .p (2, 2)) = (2, 2) ∧
    (interiorCell cfg66 (2, 2) → interiorCell cfg66 (mirrorOf cfg66 .p (2, 2))) ∧
    (adjacent BASE_KNIGHT_MOVES (2, 2) (4, 3) ↔
      adjacent BASE_KNIGHT_MOVES (mirrorOf cfg66 .p (2, 2))
        (mirrorOf cfg66 .p (4, 3))) :=
  C10_mirror_properties cfg66 .p (2, 2) (4, 3) (by decide)

-- ------------------------------------------------------------
-- C8: the sentinel border keeps every strategy access in bounds
-- ------------------------------------------------------------

theorem offset_physBounds (cfg : Config) (p : Pos) (hp : interiorCell cfg p) :
    ∀ d ∈ BASE_KNIGHT_MOVES, physBounds cfg (addOff p d) := by
  obtain ⟨h1, h2, h3, h4⟩ := hp
  intro d hd
  simp only [BASE_KNIGHT_MOVES, List.mem_cons, List.not_mem_nil, or_false] at hd
  rcases hd with rfl | rfl | rfl | rfl | rfl | rfl | rfl | rfl <;>
    simp only [physBounds, addOff] <;> omega

/-- C8: the board is a `(width+4) × (height+4)` grid whose 2-cell border is
`BLOCKED` (interior `EMPTY`), so a knight offset applied to an interior cell
stays inside physical bounds; and on any board that keeps non-interior cells
non-`EMPTY`, the degree computation's accesses from an `EMPTY` candidate are
in bounds as well. -/
theorem C8_sentinel_bounds (cfg : Config) (p : Pos) :
    (interiorCell cfg p → ∀ d ∈ BASE_KNIGHT_MOVES, physBounds cfg (addOff p d)) ∧
    (∀ b : Board, sentinelOK cfg b → ∀ c : Pos, b c.2 c.1 = EMPTY →
      ∀ d ∈ BASE_KNIGHT_MOVES, physBounds cfg (addOff c d)) ∧
    (interiorCell cfg p → initBoard cfg.width cfg.height p.2 p.1 = EMPTY) ∧
    (¬ interiorCell cfg p → initBoard cfg.width cfg.height p.2 p.1 = BLOCKED) := by
  refine ⟨offset_physBounds cfg p, ?_, ?_, ?_⟩
  · intro b hs c hc d hd
    have hci : interiorCell cfg c := by
      by_contra hno
      exact hs c hno hc
    exact offset_physBounds cfg c hci d hd
  · intro hp
    obtain ⟨h1, h2, h3, h4⟩ := hp
    simp only [initBoard]
    rw [if_pos ⟨h3, h4, h1, h2⟩]
  · intro hp
    simp only [initBoard]
    rw [if_neg]
    intro hcond
    exact hp ⟨hcond.2.2.1, hcond.2.2.2, hcond.1, hcond.2.1⟩

theorem C8_sentinel_bounds_witness :
    physBounds cfg43w (addOff (2, 2) (2, 1)) :=
  (C8_sentinel_bounds cfg43w (2, 2)).1 (by decide) (2, 1) (by decide)

-- ------------------------------------------------------------
-- C9: with the random flag off, the run does not depend on the shuffle
-- oracle at all
-- ------------------------------------------------------------

/-- C9: with `random_moves` off, two runs with the same configuration give
the same found flag, the same extracted path and the same trial count —
whatever the random source would have done. -/
theorem C9_deterministic (cfg : Config) (rng₁ rng₂ : List Pos → List Pos)
    (fuel : Nat) :
    runKnightTour cfg false rng₁ fuel = runKnightTour cfg false rng₂ fuel := rfl

-- ------------------------------------------------------------
-- C5: the Warnsdorff strategy returns exactly the empty neighbours,
-- stably sorted by ascending onward degree
-- ------------------------------------------------------------

/-- C5: `_ordered_moves_warnsdorff` returns exactly the empty knight-move
neighbours; the result is sorted ascending by `_warnsdorff_degree`; and for
every degree value, the candidates with that degree keep the relative order
they have in the plain (offset-order) candidate list — the sort is stable. -/
theorem C5_warnsdorff_ordering (km : List Pos) (b : Board) (tr : Int)
    (x y : Int) :
    (∀ c : Pos, c ∈ (_ordered_moves_warnsdorff km b tr x y).1 ↔
      ∃ d ∈ km, c = (x + d.1, y + d.2) ∧ b (y + d.2) (x + d.1) = EMPTY) ∧
    List.Sorted (fun c c' : Pos =>
        _warnsdorff_degree km b c.1 c.2 ≤ _warnsdorff_degree km b c'.1 c'.2)
      (_ordered_moves_warnsdorff km b tr x y).1 ∧
    (∀ n : Int,
      (_ordered_moves_warnsdorff km b tr x y).1.filter
          (fun c => decide (_warnsdorff_degree km b c.1 c.2 = n)) =
        (_ordered_moves_plain km b tr x y).1.filter
          (fun c => decide (_warnsdorff_degree km b c.1 c.2 = n))) := by
  refine ⟨mem_warnsdorff_moves km b tr x y, ?_, ?_⟩
  · rw [warnsdorff_moves_eq]
    rw [List.Sorted, List.pairwise_map]
    have hsorted := sorted_sortByKey (fun t : Int × Pos => t.1)
      (warnsdorffCands km b x y)
    refine List.Pairwise.imp_of_mem ?_ hsorted
    intro t u ht hu htu
    have h1 := warnsdorffCands_key km b x y t
      ((mem_sortByKey _ t _).mp ht)
    have h2 := warnsdorffCands_key km b x y u
      ((mem_sortByKey _ u _).mp hu)
    rw [← h1, ← h2]
    exact htu
  · intro n
    rw [warnsdorff_moves_eq, ← map_snd_warnsdorffCands km b tr x y,
      List.filter_map, List.filter_map]
    congr 1
    have hcongr : ∀ l : List (Int × Pos),
        (∀ t ∈ l, t.1 = _warnsdorff_degree km b t.2.1 t.2.2) →
        l.filter ((fun c : Pos => decide (_warnsdorff_degree km b c.1 c.2 = n)) ∘
          (fun t : Int × Pos => t.2)) =
        l.filter (fun t : Int × Pos => decide (t.1 = n)) := by
      intro l hl
      apply List.filter_congr
      intro t ht
      simp only [Function.comp_apply, decide_eq_decide]
      rw [hl t ht]
    rw [hcongr _ (fun t ht => warnsdorffCands_key km b x y t
        ((mem_sortByKey _ t _).mp ht)),
      hcongr _ (fun t ht => warnsdorffCands_key km b x y t ht)]
    exact filter_sortByKey (fun t : Int × Pos => t.1) n (warnsdorffCands km b x y)

-- ------------------------------------------------------------
-- C6: trial accounting of the two strategies
-- ------------------------------------------------------------

/-- C6: with the 8 knight offsets, a plain-strategy call adds exactly 8
trials, and a Warnsdorff call adds exactly `8 + 8·k` where `k` is the number
of empty candidates found. -/
theorem C6_trial_accounting (km : List Pos) (b : Board) (tr : Int)
    (x y : Int) (h8 : km.length = 8) :
    (_ordered_moves_plain km b tr x y).2 = tr + 8 ∧
    (_ordered_moves_warnsdorff km b tr x y).2 =
      tr + 8 + 8 * ((_ordered_moves_plain km b tr x y).1.length : Int) := by
  constructor
  · simp only [_ordered_moves_plain, h8]
    norm_num
  · have hlen : (_ordered_moves_plain km b tr x y).1.length =
        (warnsdorffCands km b x y).length := by
      rw [← map_snd_warnsdorffCands km b tr x y, List.length_map]
    simp only [_ordered_moves_warnsdorff, hlen, h8]
    have : ((warnsdorffCands km b x y).length : Int) *
        ((8 : Nat) : Int) = 8 * ((warnsdorffCands km b x y).length : Int) := by
      norm_num
      ring
    rw [warnsdorffCands] at this ⊢
    omega

theorem C6_trial_accounting_witness :
    (_ordered_moves_plain BASE_KNIGHT_MOVES (initBoard 4 3) 0 2 2).2 = 0 + 8 ∧
    (_ordered_moves_warnsdorff BASE_KNIGHT_MOVES (initBoard 4 3) 0 2 2).2 =
      0 + 8 + 8 * ((_ordered_moves_plain BASE_KNIGHT_MOVES (initBoard 4 3)
        0 2 2).1.length : Int) :=
  C6_trial_accounting BASE_KNIGHT_MOVES (initBoard 4 3) 0 2 2 (by decide)

-- ------------------------------------------------------------
-- Basic lemmas about `boardOfStack`
-- ------------------------------------------------------------

theorem posOf_eq_iff (f : Situation) (x y : Int) :
    posOf f = (x, y) ↔ f.x = x ∧ f.y = y := by
  simp [posOf, Prod.ext_iff]

theorem initBoard_neg (w h y x : Int) : initBoard w h y x < 0 := by
  unfold initBoard
  split <;> norm_num [EMPTY, BLOCKED]

theorem initBoard_eq_EMPTY_iff (cfg : Config) (x y : Int) :
    initBoard cfg.width cfg.height y x = EMPTY ↔ interiorCell cfg (x, y) := by
  by_cases h : 2 ≤ y ∧ y < cfg.height + 2 ∧ 2 ≤ x ∧ x < cfg.width + 2
  · rw [initBoard, if_pos h]
    constructor
    · intro _
      exact ⟨h.2.2.1, h.2.2.2, h.1, h.2.1⟩
    · intro _
      rfl
  · rw [initBoard, if_neg h]
    constructor
    · intro hBE
      norm_num [BLOCKED, EMPTY] at hBE
    · intro hint
      exact absurd ⟨hint.2.2.1, hint.2.2.2, hint.1, hint.2.1⟩ h

theorem boardOfStack_cons (cfg : Config) (f : Situation)
    (stack : List Situation) (y x : Int) :
    boardOfStack cfg (f :: stack) y x =
      if f.x = x ∧ f.y = y then f.move_num else boardOfStack cfg stack y x := by
  by_cases h : f.x = x ∧ f.y = y <;>
    simp [boardOfStack, List.find?_cons, h]

theorem boardOfStack_posOf (cfg : Config) (stack : List Situation)
    (f : Situation) (hnd : stack.Pairwise (fun f g => posOf f ≠ posOf g))
    (hf : f ∈ stack) : boardOfStack cfg stack f.y f.x = f.move_num := by
  induction stack with
  | nil => cases hf
  | cons g rest ih =>
    rw [boardOfStack_cons]
    rcases List.mem_cons.mp hf with rfl | hf'
    · rw [if_pos ⟨rfl, rfl⟩]
    · have hne : posOf g ≠ posOf f := (List.pairwise_cons.mp hnd).1 f hf'
      rw [if_neg]
      · exact ih (List.pairwise_cons.mp hnd).2 hf'
      · rintro ⟨h1, h2⟩
        exact hne (by simp [posOf, Prod.ext_iff, h1, h2])

theorem boardOfStack_not_mem (cfg : Config) (stack : List Situation)
    (x y : Int) (h : ∀ f ∈ stack, posOf f ≠ (x, y)) :
    boardOfStack cfg stack y x = initBoard cfg.width cfg.height y x := by
  induction stack with
  | nil => rfl
  | cons g rest ih =>
    rw [boardOfStack_cons, if_neg, ih (fun f hf => h f (List.mem_cons_of_mem g hf))]
    rintro ⟨h1, h2⟩
    exact h g (List.mem_cons_self g rest) ((posOf_eq_iff g x y).mpr ⟨h1, h2⟩)

theorem boardOfStack_eq_EMPTY_iff (cfg : Config) (stack : List Situation)
    (y x : Int) (hnn : ∀ f ∈ stack, 0 ≤ f.move_num) :
    boardOfStack cfg stack y x = EMPTY ↔
      interiorCell cfg (x, y) ∧ ∀ f ∈ stack, posOf f ≠ (x, y) := by
  constructor
  · intro h
    unfold boardOfStack at h
    cases hfind : stack.find? (fun f => decide (f.x = x ∧ f.y = y)) with
    | some f =>
      rw [hfind] at h
      have h0 := hnn f (List.mem_of_find?_eq_some hfind)
      simp only [EMPTY] at h
      omega
    | none =>
      rw [hfind] at h
      refine ⟨(initBoard_eq_EMPTY_iff cfg x y).mp h, ?_⟩
      intro f hf hpos
      have hnp := List.find?_eq_none.mp hfind f hf
      apply hnp
      obtain ⟨h1, h2⟩ := (posOf_eq_iff f x y).mp hpos
      simp [h1, h2]
  · rintro ⟨hint, hnotin⟩
    rw [boardOfStack_not_mem cfg stack x y hnotin]
    exact (initBoard_eq_EMPTY_iff cfg x y).mpr hint

theorem boardOfStack_pos_value (cfg : Config) (stack : List Situation)
    (y x v : Int) (hv : boardOfStack cfg stack y x = v) (h0 : 0 ≤ v) :
    ∃ g ∈ stack, posOf g = (x, y) ∧ g.move_num = v := by
  unfold boardOfStack at hv
  cases hfind : stack.find? (fun f => decide (f.x = x ∧ f.y = y)) with
  | some f =>
    rw [hfind] at hv
    have hpf := List.find?_some hfind
    simp only [decide_eq_true_eq] at hpf
    exact ⟨f, List.mem_of_find?_eq_some hfind,
      (posOf_eq_iff f x y).mpr hpf, hv⟩
  | none =>
    rw [hfind] at hv
    have hv' : initBoard cfg.width cfg.height y x = v := hv
    have hneg := initBoard_neg cfg.width cfg.height y x
    rw [hv'] at hneg
    omega

theorem boardOfStack_congr (cfg : Config) :
    ∀ s₁ s₂ : List Situation, s₁.map frameCore = s₂.map frameCore →
      boardOfStack cfg s₁ = boardOfStack cfg s₂ := by
  intro s₁
  induction s₁ with
  | nil =>
    intro s₂ h
    cases s₂ with
    | nil => rfl
    | cons g r => simp at h
  | cons f rest ih =>
    intro s₂ h
    cases s₂ with
    | nil => simp at h
    | cons g rest₂ =>
      simp only [List.map_cons, List.cons.injEq] at h
      obtain ⟨hfg, hrest⟩ := h
      obtain ⟨e1, e2, e3⟩ : f.x = g.x ∧ f.y = g.y ∧ f.move_num = g.move_num := by
        simpa [frameCore, Prod.ext_iff] using hfg
      funext y x
      rw [boardOfStack_cons, boardOfStack_cons, e1, e2, e3, ih rest₂ hrest]

-- ------------------------------------------------------------
-- Basic lemmas about `ChainOK` and `RemOK`
-- ------------------------------------------------------------

theorem chainOK_tail (cfg : Config) (km : List Pos) (f : Situation)
    (rest : List Situation) (h : ChainOK cfg km (f :: rest)) :
    ChainOK cfg km rest := by
  cases rest with
  | nil => trivial
  | cons g r => exact h.2.2.2

theorem chainOK_interior (cfg : Config) (km : List Pos) :
    ∀ stack : List Situation, ChainOK cfg km stack →
      ∀ f ∈ stack, interiorCell cfg (posOf f) := by
  intro stack
  induction stack with
  | nil =>
    intro _ f hf
    cases hf
  | cons g rest ih =>
    intro h f hf
    rcases List.mem_cons.mp hf with rfl | hf'
    · cases rest with
      | nil => exact h.2.2.2
      | cons g2 r => exact h.2.2.1
    · exact ih (chainOK_tail cfg km g rest h) f hf'

theorem chainOK_head_num (cfg : Config) (km : List Pos) :
    ∀ (rest : List Situation) (f : Situation), ChainOK cfg km (f :: rest) →
      f.move_num + 1 = (f :: rest).length := by
  intro rest
  induction rest with
  | nil =>
    intro f h
    rw [h.2.2.1]
    rfl
  | cons g r ih =>
    intro f h
    have hg := ih g h.2.2.2
    rw [h.1]
    simp only [List.length_cons] at hg ⊢
    push_cast at hg ⊢
    omega

theorem chainOK_nonneg (cfg : Config) (km : List Pos) :
    ∀ stack : List Situation, ChainOK cfg km stack →
      ∀ f ∈ stack, 0 ≤ f.move_num := by
  intro stack
  induction stack with
  | nil =>
    intro _ f hf
    cases hf
  | cons g rest ih =>
    intro h f hf
    rcases List.mem_cons.mp hf with rfl | hf'
    · have := chainOK_head_num cfg km rest f h
      have hlen : (0 : Int) < (f :: rest).length := by
        simp only [List.length_cons]
        push_cast
        omega
      omega
    · exact ih (chainOK_tail cfg km g rest h) f hf'

theorem chainOK_get_num (cfg : Config) (km : List Pos) :
    ∀ (stack : List Situation), ChainOK cfg km stack →
      ∀ (i : Nat) (h : i < stack.length),
        (stack.get ⟨i, h⟩).move_num = ((stack.length - 1 - i : Nat) : Int) := by
  intro stack
  induction stack with
  | nil =>
    intro _ i h
    simp at h
  | cons f rest ih =>
    intro hch i h
    cases i with
    | zero =>
      have hnum := chainOK_head_num cfg km rest f hch
      show f.move_num = (((f :: rest).length - 1 - 0 : Nat) : Int)
      simp only [List.length_cons] at hnum ⊢
      push_cast at hnum ⊢
      omega
    | succ j =>
      have hj : j < rest.length := by
        simp only [List.length_cons] at h
        omega
      have := ih (chainOK_tail cfg km f rest hch) j hj
      show (rest.get ⟨j, hj⟩).move_num = (((f :: rest).length - 1 - (j + 1) : Nat) : Int)
      rw [this]
      congr 1
      simp only [List.length_cons]
      omega

theorem chainOK_get_adjacent (cfg : Config) (km : List Pos) :
    ∀ (stack : List Situation), ChainOK cfg km stack →
      ∀ (j : Nat) (h1 : j + 1 < stack.length) (h0 : j < stack.length),
        adjacent km (posOf (stack.get ⟨j + 1, h1⟩)) (posOf (stack.get ⟨j, h0⟩)) := by
  intro stack
  induction stack with
  | nil =>
    intro _ j h1 h0
    simp at h1
  | cons f rest ih =>
    intro hch j h1 h0
    cases j with
    | zero =>
      cases rest with
      | nil => simp at h1
      | cons g r =>
        show adjacent km (posOf g) (posOf f)
        exact hch.2.1
    | succ j' =>
      have h1' : j' + 1 < rest.length := by
        simp only [List.length_cons] at h1
        omega
      have h0' : j' < rest.length := by omega
      show adjacent km (posOf (rest.get ⟨j' + 1, h1'⟩)) (posOf (rest.get ⟨j', h0'⟩))
      exact ih (chainOK_tail cfg km f rest hch) j' h1' h0'

theorem chainOK_getLast (cfg : Config) (km : List Pos) :
    ∀ (rest : List Situation) (f : Situation), ChainOK cfg km (f :: rest) →
      posOf ((f :: rest).getLast (List.cons_ne_nil f rest)) =
        (start_px cfg, start_py cfg) := by
  intro rest
  induction rest with
  | nil =>
    intro f h
    show posOf f = (start_px cfg, start_py cfg)
    exact (posOf_eq_iff f _ _).mpr ⟨h.1, h.2.1⟩
  | cons g r ih =>
    intro f h
    rw [List.getLast_cons (List.cons_ne_nil g r)]
    exact ih g h.2.2.2

/-- `ChainOK` only looks at positions and move numbers, so bumping a frame's
cursor preserves it. -/
theorem chainOK_congr_head (cfg : Config) (km : List Pos) (f g : Situation)
    (rest : List Situation) (hx : f.x = g.x) (hy : f.y = g.y)
    (hn : f.move_num = g.move_num) (h : ChainOK cfg km (f :: rest)) :
    ChainOK cfg km (g :: rest) := by
  have hpos : posOf f = posOf g := by simp [posOf, hx, hy]
  cases rest with
  | nil =>
    exact ⟨hx ▸ h.1, hy ▸ h.2.1, hn ▸ h.2.2.1, hpos ▸ h.2.2.2⟩
  | cons g2 r =>
    exact ⟨hn ▸ h.1, hpos ▸ h.2.1, hpos ▸ h.2.2.1, h.2.2.2⟩

theorem mem_remaining_get (cur : Situation)
    (h : cur.next_index < cur.moves.length) :
    cur.moves.get ⟨cur.next_index, h⟩ ∈ remaining cur := by
  unfold remaining
  rw [List.drop_eq_getElem_cons h]
  exact List.mem_cons_self _ _

theorem remaining_bump (cur : Situation) (c : Pos)
    (hc : c ∈ remaining { cur with next_index := cur.next_index + 1 }) :
    c ∈ remaining cur := by
  unfold remaining at hc ⊢
  have : cur.moves.drop (cur.next_index + 1) ⊆ cur.moves.drop cur.next_index := by
    rw [← List.drop_drop 1 cur.next_index]
    exact List.drop_subset 1 _
  exact this hc

-- ------------------------------------------------------------
-- Preservation of the plain-loop invariant
-- ------------------------------------------------------------

theorem plainAdvance_not_done (cfg : Config) (km : List Pos) (b : Board)
    (tr : Int) (cur : Situation) (rest : List Situation) (r : Bool)
    (b0 : Board) (t0 : Int) :
    plainAdvance cfg km b tr cur rest ≠ .done r b0 t0 := by
  unfold plainAdvance
  split <;> exact fun h => StepRes.noConfusion h

theorem plainAdvance_inv (cfg : Config) (km : List Pos) (b : Board) (tr : Int)
    (cur : Situation) (rest : List Situation)
    (hinv : PlainInv cfg km b (cur :: rest)) (b' : Board) (tr' : Int)
    (st' : List Situation)
    (heq : plainAdvance cfg km b tr cur rest = .next b' tr' st') :
    PlainInv cfg km b' st' := by
  obtain ⟨hch, hnd, hbd, hrem⟩ := hinv
  have hnonneg : ∀ f ∈ cur :: rest, 0 ≤ f.move_num :=
    chainOK_nonneg cfg km (cur :: rest) hch
  unfold plainAdvance at heq
  by_cases hidx : cur.next_index < cur.moves.length
  · rw [dif_pos hidx] at heq
    injection heq with e1 e2 e3
    subst e1
    subst e2
    subst e3
    set c := cur.moves.get ⟨cur.next_index, hidx⟩ with hc
    set cur' : Situation := { cur with next_index := cur.next_index + 1 } with hcur'
    set newF : Situation :=
      { x := c.1, y := c.2, move_num := cur.move_num + 1,
        moves := (move_generator cfg km (setCell b c.2 c.1 (cur.move_num + 1))
          tr c.1 c.2).1, next_index := 0 } with hnewF
    have hcrem : c ∈ remaining cur := mem_remaining_get cur hidx
    have hhead := hrem.1 c hcrem
    have hemp : boardOfStack cfg (cur :: rest) c.2 c.1 = EMPTY := hhead.2
    obtain ⟨hint, hnotin⟩ :=
      (boardOfStack_eq_EMPTY_iff cfg (cur :: rest) c.2 c.1 hnonneg).mp hemp
    have hcongr : boardOfStack cfg (cur' :: rest) = boardOfStack cfg (cur :: rest) := by
      apply boardOfStack_congr
      simp [frameCore, hcur']
    have hbEq : setCell b c.2 c.1 (cur.move_num + 1) =
        boardOfStack cfg (newF :: cur' :: rest) := by
      funext y x
      rw [boardOfStack_cons]
      by_cases hpos : newF.x = x ∧ newF.y = y
      · rw [if_pos hpos]
        obtain ⟨h1, h2⟩ := hpos
        simp only [hnewF] at h1 h2
        rw [setCell, if_pos ⟨h2.symm, h1.symm⟩]
      · rw [if_neg hpos, hcongr, ← hbd, setCell, if_neg]
        intro hcond
        exact hpos ⟨hcond.2.symm, hcond.1.symm⟩
    have hchain' : ChainOK cfg km (newF :: cur' :: rest) := by
      refine ⟨rfl, ?_, ?_, ?_⟩
      · exact hhead.1
      · exact hint
      · exact chainOK_congr_head cfg km cur cur' rest rfl rfl rfl hch
    have hnodup' : (newF :: cur' :: rest).Pairwise (fun f g => posOf f ≠ posOf g) := by
      rw [List.pairwise_cons]
      constructor
      · intro g hg
        rcases List.mem_cons.mp hg with rfl | hg'
        · intro hne
          exact hnotin cur (List.mem_cons_self cur rest) hne.symm
        · intro hne
          exact hnotin g (List.mem_cons_of_mem cur hg') hne.symm
      · rw [List.pairwise_cons] at hnd ⊢
        exact ⟨fun g hg => hnd.1 g hg, hnd.2⟩
    refine ⟨hchain', hnodup', hbEq, ?_, ?_, hrem.2⟩
    · -- pending candidates of the freshly pushed frame
      intro c' hc'
      have hc'' : c' ∈ (move_generator cfg km
          (setCell b c.2 c.1 (cur.move_num + 1)) tr c.1 c.2).1 := by
        simpa [remaining, hnewF] using hc'
      obtain ⟨d, hd, rfl, hE⟩ :=
        (mem_move_generator cfg km _ tr c.1 c.2 c').mp hc''
      constructor
      · exact ⟨d, hd, rfl⟩
      · rw [← hbEq]
        exact hE
    · -- pending candidates of the bumped frame
      intro c' hc'
      have hold := hrem.1 c' (remaining_bump cur c' hc')
      exact ⟨hold.1, by rw [hcongr]; exact hold.2⟩
  · rw [dif_neg hidx] at heq
    injection heq with e1 e2 e3
    subst e1
    subst e2
    subst e3
    refine ⟨chainOK_tail cfg km cur rest hch,
      (List.pairwise_cons.mp hnd).2, ?_, hrem.2⟩
    funext y x
    by_cases hpos : y = cur.y ∧ x = cur.x
    · obtain ⟨rfl, rfl⟩ := hpos
      rw [setCell, if_pos ⟨rfl, rfl⟩]
      rw [boardOfStack_not_mem cfg rest cur.x cur.y
        (fun g hg h => ((List.pairwise_cons.mp hnd).1 g hg) h.symm)]
      · exact ((initBoard_eq_EMPTY_iff cfg cur.x cur.y).mpr
          (chainOK_interior cfg km _ hch cur (List.mem_cons_self cur rest))).symm
    · rw [setCell, if_neg hpos, hbd, boardOfStack_cons, if_neg]
      intro hcond
      exact hpos ⟨hcond.2.symm, hcond.1.symm⟩

theorem plainStep_nil (cfg : Config) (km : List Pos) (b : Board) (tr : Int) :
    plainStep cfg km b tr [] = .done false b tr := rfl

theorem plainStep_cons (cfg : Config) (km : List Pos) (b : Board) (tr : Int)
    (cur : Situation) (rest : List Situation) :
    plainStep cfg km b tr (cur :: rest) =
      if cur.move_num + 1 = cfg.width * cfg.height then
        if cfg.closed then
          if _can_connect km cur.x cur.y (start_px cfg) (start_py cfg) then
            .done true b tr
          else plainAdvance cfg km b tr cur rest
        else .done true b tr
      else plainAdvance cfg km b tr cur rest := rfl

theorem plainStep_next_inv (cfg : Config) (km : List Pos) (b : Board)
    (tr : Int) (stack : List Situation) (b' : Board) (tr' : Int)
    (st' : List Situation) (hinv : PlainInv cfg km b stack)
    (heq : plainStep cfg km b tr stack = .next b' tr' st') :
    PlainInv cfg km b' st' := by
  cases stack with
  | nil =>
    rw [plainStep_nil] at heq
    exact absurd heq (fun h => StepRes.noConfusion h)
  | cons cur rest =>
    rw [plainStep_cons] at heq
    by_cases h1 : cur.move_num + 1 = cfg.width * cfg.height
    · rw [if_pos h1] at heq
      by_cases h2 : cfg.closed = true
      · rw [if_pos h2] at heq
        by_cases h3 : _can_connect km cur.x cur.y (start_px cfg) (start_py cfg) = true
        · rw [if_pos h3] at heq
          exact absurd heq (fun h => StepRes.noConfusion h)
        · rw [if_neg h3] at heq
          exact plainAdvance_inv cfg km b tr cur rest hinv b' tr' st' heq
      · rw [if_neg h2] at heq
        exact absurd heq (fun h => StepRes.noConfusion h)
    · rw [if_neg h1] at heq
      exact plainAdvance_inv cfg km b tr cur rest hinv b' tr' st' heq

theorem plainStep_done_true (cfg : Config) (km : List Pos) (b : Board)
    (tr : Int) (stack : List Situation) (b' : Board) (tr' : Int)
    (heq : plainStep cfg km b tr stack = .done true b' tr') :
    b' = b ∧ tr' = tr ∧ ∃ cur rest, stack = cur :: rest ∧
      cur.move_num + 1 = cfg.width * cfg.height ∧
      (cfg.closed = true →
        _can_connect km cur.x cur.y (start_px cfg) (start_py cfg) = true) := by
  cases stack with
  | nil =>
    rw [plainStep_nil] at heq
    injection heq with e1 e2 e3
    exact absurd e1 (by simp)
  | cons cur rest =>
    rw [plainStep_cons] at heq
    by_cases h1 : cur.move_num + 1 = cfg.width * cfg.height
    · rw [if_pos h1] at heq
      by_cases h2 : cfg.closed = true
      · rw [if_pos h2] at heq
        by_cases h3 : _can_connect km cur.x cur.y (start_px cfg) (start_py cfg) = true
        · rw [if_pos h3] at heq
          injection heq with e1 e2 e3
          exact ⟨e2.symm, e3.symm, cur, rest, rfl, h1, fun _ => h3⟩
        · rw [if_neg h3] at heq
          exact absurd heq (plainAdvance_not_done cfg km b tr cur rest _ _ _)
      · rw [if_neg h2] at heq
        injection heq with e1 e2 e3
        exact ⟨e2.symm, e3.symm, cur, rest, rfl, h1, fun hc => absurd hc h2⟩
    · rw [if_neg h1] at heq
      exact absurd heq (plainAdvance_not_done cfg km b tr cur rest _ _ _)

theorem solveLoop_succ (cfg : Config) (km : List Pos) (fuel : Nat) (b : Board)
    (tr : Int) (stack : List Situation) :
    solveLoop cfg km (fuel + 1) b tr stack =
      match plainStep cfg km b tr stack with
      | .done r b' tr' => some (r, b', tr')
      | .next b' tr' st' => solveLoop cfg km fuel b' tr' st' := rfl

theorem solveLoop_true (cfg : Config) (km : List Pos) :
    ∀ (fuel : Nat) (b : Board) (tr : Int) (stack : List Situation)
      (b' : Board) (tr' : Int),
      PlainInv cfg km b stack →
      solveLoop cfg km fuel b tr stack = some (true, b', tr') →
      ∃ cur rest, PlainInv cfg km b' (cur :: rest) ∧
        cur.move_num + 1 = cfg.width * cfg.height ∧
        (cfg.closed = true →
          _can_connect km cur.x cur.y (start_px cfg) (start_py cfg) = true) := by
  intro fuel
  induction fuel with
  | zero =>
    intro b tr stack b' tr' _ h
    exact absurd h (by simp [solveLoop])
  | succ n ih =>
    intro b tr stack b' tr' hinv h
    rw [solveLoop_succ] at h
    cases hstep : plainStep cfg km b tr stack with
    | done r b0 t0 =>
      rw [hstep] at h
      have h2 : (r, b0, t0) = (true, b', tr') := Option.some.inj h
      simp only [Prod.mk.injEq] at h2
      obtain ⟨hr, hb0, ht0⟩ := h2
      subst hr
      subst hb0
      subst ht0
      obtain ⟨hb, ht, cur, rest, hstack, hcomp, hconn⟩ :=
        plainStep_done_true cfg km b tr stack b0 t0 hstep
      subst hstack
      subst hb
      exact ⟨cur, rest, hinv, hcomp, hconn⟩
    | next b2 t2 st2 =>
      rw [hstep] at h
      exact ih b2 t2 st2 b' tr'
        (plainStep_next_inv cfg km b tr stack b2 t2 st2 hinv hstep) h

theorem initPlainState_inv (cfg : Config) (km : List Pos)
    (hsx1 : 0 ≤ cfg.start_x) (hsx2 : cfg.start_x < cfg.width)
    (hsy1 : 0 ≤ cfg.start_y) (hsy2 : cfg.start_y < cfg.height) :
    PlainInv cfg km (initPlainState cfg km).1 (initPlainState cfg km).2.2 := by
  have hint : interiorCell cfg (start_px cfg, start_py cfg) := by
    unfold interiorCell start_px start_py
    constructor
    · omega
    constructor
    · omega
    constructor
    · omega
    · omega
  set b0 : Board := setCell (initBoard cfg.width cfg.height) (start_py cfg)
    (start_px cfg) 0 with hb0def
  set f0 : Situation :=
    { x := start_px cfg, y := start_py cfg, move_num := 0,
      moves := (move_generator cfg km b0 0 (start_px cfg) (start_py cfg)).1,
      next_index := 0 } with hf0def
  have hshape : (initPlainState cfg km).1 = b0 ∧
      (initPlainState cfg km).2.2 = [f0] := ⟨rfl, rfl⟩
  rw [hshape.1, hshape.2]
  have hbEq : b0 = boardOfStack cfg [f0] := by
    funext y x
    rw [boardOfStack_cons]
    by_cases hpos : f0.x = x ∧ f0.y = y
    · rw [if_pos hpos]
      obtain ⟨h1, h2⟩ := hpos
      simp only [hf0def] at h1 h2
      rw [hb0def, setCell, if_pos ⟨h2.symm, h1.symm⟩]
    · rw [if_neg hpos, hb0def, setCell, if_neg]
      · rfl
      · intro hcond
        exact hpos ⟨hcond.2.symm, hcond.1.symm⟩
  refine ⟨⟨rfl, rfl, rfl, hint⟩, List.pairwise_singleton _ _, hbEq, ?_, trivial⟩
  intro c hc
  have hc' : c ∈ (move_generator cfg km b0 0 (start_px cfg) (start_py cfg)).1 := by
    simpa [remaining, hf0def] using hc
  obtain ⟨d, hd, rfl, hE⟩ :=
    (mem_move_generator cfg km b0 0 (start_px cfg) (start_py cfg) c).mp hc'
  exact ⟨⟨d, hd, rfl⟩, by rw [← hbEq]; exact hE⟩

-- ------------------------------------------------------------
-- Path extraction: `get_path` of a stack-determined board
-- ------------------------------------------------------------

theorem fillStep_length (b : Board) (bound : Int) (payload : Pos → Pos)
    (acc : List (Option Pos)) (p : Pos) :
    (fillStep b bound payload acc p).length = acc.length := by
  unfold fillStep
  split
  · rw [List.length_set]
  · rfl

theorem fill_foldl_length (b : Board) (bound : Int) (payload : Pos → Pos) :
    ∀ (cells : List Pos) (acc : List (Option Pos)),
      (cells.foldl (fillStep b bound payload) acc).length = acc.length := by
  intro cells
  induction cells with
  | nil => intro acc; rfl
  | cons p rest ih =>
    intro acc
    rw [List.foldl_cons, ih, fillStep_length]

theorem fillByNumber_length (cells : List Pos) (b : Board) (bound : Int)
    (payload : Pos → Pos) :
    (fillByNumber cells b bound payload).length = bound.toNat := by
  unfold fillByNumber
  rw [fill_foldl_length, List.length_replicate]

theorem fill_foldl_getElem (b : Board) (bound : Int) (payload : Pos → Pos)
    (n : Nat) (hn : (n : Int) < bound) :
    ∀ (cells : List Pos) (acc : List (Option Pos)), n < acc.length →
      (cells.foldl (fillStep b bound payload) acc)[n]? =
        (match cells.reverse.find? (fun p => decide (b p.2 p.1 = (n : Int))) with
         | some p => some (some (payload p))
         | none => acc[n]?) := by
  intro cells
  induction cells with
  | nil =>
    intro acc hacc
    rfl
  | cons p rest ih =>
    intro acc hacc
    rw [List.foldl_cons]
    have hacc' : n < (fillStep b bound payload acc p).length := by
      rw [fillStep_length]
      exact hacc
    rw [ih (fillStep b bound payload acc p) hacc']
    rw [List.reverse_cons, List.find?_append]
    cases hfind : rest.reverse.find? (fun p => decide (b p.2 p.1 = (n : Int))) with
    | some q => rfl
    | none =>
      simp only [Option.none_or]
      by_cases hp : b p.2 p.1 = (n : Int)
      · have hfp : List.find? (fun p => decide (b p.2 p.1 = (n : Int))) [p] = some p := by
          simp [List.find?, hp]
        rw [hfp]
        have hcond : 0 ≤ b p.2 p.1 ∧ b p.2 p.1 < bound := by
          rw [hp]
          exact ⟨Int.natCast_nonneg n, hn⟩
        unfold fillStep
        rw [if_pos hcond, hp, Int.toNat_natCast]
        rw [List.getElem?_set_self hacc]
      · have hfp : List.find? (fun p => decide (b p.2 p.1 = (n : Int))) [p] = none := by
          simp [List.find?, hp]
        rw [hfp]
        unfold fillStep
        by_cases hcond : 0 ≤ b p.2 p.1 ∧ b p.2 p.1 < bound
        · rw [if_pos hcond, List.getElem?_set_ne]
          intro hne
          apply hp
          rw [← hne]
          exact (Int.toNat_of_nonneg hcond.1).symm
        · rw [if_neg hcond]

theorem fillByNumber_getElem (cells : List Pos) (b : Board) (bound : Int)
    (payload : Pos → Pos) (n : Nat) (hn : (n : Int) < bound) :
    (fillByNumber cells b bound payload)[n]? =
      (match cells.reverse.find? (fun p => decide (b p.2 p.1 = (n : Int))) with
       | some p => some (some (payload p))
       | none => some none) := by
  unfold fillByNumber
  have hlen : n < (List.replicate bound.toNat (none : Option Pos)).length := by
    rw [List.length_replicate]
    omega
  rw [fill_foldl_getElem b bound payload n hn cells _ hlen]
  cases cells.reverse.find? (fun p => decide (b p.2 p.1 = (n : Int))) with
  | some q => rfl
  | none =>
    simp only [List.getElem?_replicate]
    rw [if_pos (by omega : n < bound.toNat)]

theorem mem_intRange (lo hi a : Int) : a ∈ intRange lo hi ↔ lo ≤ a ∧ a < hi := by
  unfold intRange
  constructor
  · intro hmem
    obtain ⟨i, hi', heq⟩ := List.mem_map.mp hmem
    rw [List.mem_range] at hi'
    omega
  · intro h
    apply List.mem_map.mpr
    refine ⟨(a - lo).toNat, ?_, ?_⟩
    · rw [List.mem_range]
      omega
    · omega

theorem mem_scanCells (cfg : Config) (p : Pos) :
    p ∈ scanCells cfg ↔ interiorCell cfg p := by
  unfold scanCells interiorCell
  simp only [List.mem_flatMap, List.mem_map, mem_intRange]
  constructor
  · rintro ⟨y, hy, x, hx, rfl⟩
    exact ⟨hx.1, hx.2, hy.1, hy.2⟩
  · rintro ⟨h1, h2, h3, h4⟩
    exact ⟨p.2, ⟨h3, h4⟩, p.1, ⟨h1, h2⟩, rfl⟩

theorem find?_eq_some_unique {α : Type} (L : List α) (pred : α → Bool) (c : α)
    (hc : c ∈ L) (hpc : pred c = true)
    (huniq : ∀ p ∈ L, pred p = true → p = c) :
    L.find? pred = some c := by
  have hsome : (L.find? pred).isSome = true := List.find?_isSome.mpr ⟨c, hc, hpc⟩
  obtain ⟨q, hq⟩ := Option.isSome_iff_exists.mp hsome
  rw [hq, huniq q (List.mem_of_find?_eq_some hq) (List.find?_some hq)]

theorem chainOK_num_inj (cfg : Config) (km : List Pos)
    (stack : List Situation) (hch : ChainOK cfg km stack) :
    ∀ f ∈ stack, ∀ g ∈ stack, f.move_num = g.move_num → f = g := by
  intro f hf g hg hnum
  obtain ⟨i, hi, hif⟩ := List.mem_iff_getElem.mp hf
  obtain ⟨j, hj, hjg⟩ := List.mem_iff_getElem.mp hg
  have hfi : f = stack.get ⟨i, hi⟩ := by
    rw [List.get_eq_getElem, hif]
  have hgj : g = stack.get ⟨j, hj⟩ := by
    rw [List.get_eq_getElem, hjg]
  rw [hfi, hgj] at hnum ⊢
  rw [chainOK_get_num cfg km stack hch i hi,
    chainOK_get_num cfg km stack hch j hj] at hnum
  have : i = j := by omega
  subst this
  rfl

theorem tourOf_length (stack : List Situation) :
    (tourOf stack).length = stack.length := by
  simp [tourOf]

/-- With a chain-structured stack of full length, `get_path` of the
stack-determined board is exactly the stack's tour, shifted to user
coordinates. -/
theorem get_path_boardOfStack (cfg : Config) (km : List Pos)
    (stack : List Situation) (hch : ChainOK cfg km stack)
    (hnd : stack.Pairwise (fun f g => posOf f ≠ posOf g))
    (hlen : (stack.length : Int) = cfg.width * cfg.height) :
    get_path cfg (boardOfStack cfg stack) =
      (tourOf stack).map (fun p => some (p.1 - 2, p.2 - 2)) := by
  apply List.ext_getElem?
  intro n
  by_cases hn : n < stack.length
  · have hnInt : (n : Int) < cfg.width * cfg.height := by omega
    have hj : stack.length - 1 - n < stack.length := by omega
    set fn := stack.get ⟨stack.length - 1 - n, hj⟩ with hfn
    have hfn_num : fn.move_num = (n : Int) := by
      rw [hfn, chainOK_get_num cfg km stack hch _ hj]
      have : stack.length - 1 - (stack.length - 1 - n) = n := by omega
      rw [this]
    have hfn_mem : fn ∈ stack := List.get_mem stack _ hj
    have hval : boardOfStack cfg stack fn.y fn.x = (n : Int) := by
      rw [boardOfStack_posOf cfg stack fn hnd hfn_mem, hfn_num]
    have hRHS : ((tourOf stack).map (fun p => some (p.1 - 2, p.2 - 2)))[n]? =
        some (some ((posOf fn).1 - 2, (posOf fn).2 - 2)) := by
      rw [List.getElem?_map]
      unfold tourOf
      rw [List.getElem?_map]
      have hnrev : n < stack.reverse.length := by
        rw [List.length_reverse]
        exact hn
      rw [List.getElem?_eq_getElem hnrev, List.getElem_reverse hnrev]
      rw [← List.get_eq_getElem stack ⟨stack.length - 1 - n, hj⟩, ← hfn]
      rfl
    rw [hRHS]
    unfold get_path
    rw [fillByNumber_getElem (scanCells cfg) _ _ _ n hnInt]
    have hfind : (scanCells cfg).reverse.find?
        (fun p => decide (boardOfStack cfg stack p.2 p.1 = (n : Int))) =
          some (posOf fn) := by
      apply find?_eq_some_unique
      · rw [List.mem_reverse, mem_scanCells]
        exact chainOK_interior cfg km stack hch fn hfn_mem
      · simp only [decide_eq_true_eq]
        exact hval
      · intro p hp hpred
        simp only [decide_eq_true_eq] at hpred
        obtain ⟨g, hg, hgpos, hgnum⟩ := boardOfStack_pos_value cfg stack p.2 p.1
          ((n : Nat) : Int) hpred (Int.natCast_nonneg n)
        have hgfn : g = fn :=
          chainOK_num_inj cfg km stack hch g hg fn hfn_mem
            (by rw [hgnum, hfn_num])
        rw [hgfn] at hgpos
        exact hgpos.symm
    rw [hfind]
  · have h1 : (get_path cfg (boardOfStack cfg stack)).length ≤ n := by
      unfold get_path
      rw [fillByNumber_length]
      omega
    have h2 : (((tourOf stack).map (fun p => some (p.1 - 2, p.2 - 2)))).length ≤ n := by
      rw [List.length_map, tourOf_length]
      omega
    rw [List.getElem?_eq_none h1, List.getElem?_eq_none h2]

-- ------------------------------------------------------------
-- Pigeonhole: a full-length tour covers every interior cell
-- ------------------------------------------------------------

theorem mem_interiorFinset (cfg : Config) (p : Pos) :
    p ∈ interiorFinset cfg ↔ interiorCell cfg p := by
  unfold interiorFinset interiorCell
  rw [Finset.mem_product, Finset.mem_Ico, Finset.mem_Ico]
  tauto

theorem interiorFinset_card (cfg : Config) (hw : 0 ≤ cfg.width)
    (hh : 0 ≤ cfg.height) :
    (interiorFinset cfg).card = (cfg.width * cfg.height).toNat := by
  unfold interiorFinset
  rw [Finset.card_product, Int.card_Ico, Int.card_Ico]
  have h1 : cfg.width + 2 - 2 = cfg.width := by ring
  have h2 : cfg.height + 2 - 2 = cfg.height := by ring
  rw [h1, h2]
  obtain ⟨a, ha⟩ := Int.eq_ofNat_of_zero_le hw
  obtain ⟨b, hb⟩ := Int.eq_ofNat_of_zero_le hh
  rw [ha, hb, ← Nat.cast_mul, Int.toNat_natCast, Int.toNat_natCast,
    Int.toNat_natCast]

theorem tour_coverage (cfg : Config) (l : List Pos) (hnd : l.Nodup)
    (hsub : ∀ p ∈ l, interiorCell cfg p)
    (hcard : l.length = (interiorFinset cfg).card) :
    ∀ p : Pos, interiorCell cfg p → p ∈ l := by
  have hsub' : l.toFinset ⊆ interiorFinset cfg := by
    intro p hp
    rw [List.mem_toFinset] at hp
    rw [mem_interiorFinset]
    exact hsub p hp
  have hcard2 : (interiorFinset cfg).card ≤ l.toFinset.card := by
    rw [List.toFinset_card_of_nodup hnd, hcard]
  have heq : l.toFinset = interiorFinset cfg :=
    Finset.eq_of_subset_of_card_le hsub' hcard2
  intro p hp
  rw [← List.mem_toFinset, heq, mem_interiorFinset]
  exact hp

-- ------------------------------------------------------------
-- Adjacency transfer lemmas and tour properties
-- ------------------------------------------------------------

theorem adjacent_shift (km : List Pos) (p q : Pos) :
    adjacent km (p.1 - 2, p.2 - 2) (q.1 - 2, q.2 - 2) ↔ adjacent km p q := by
  unfold adjacent addOff
  constructor
  · rintro ⟨d, hd, he⟩
    refine ⟨d, hd, ?_⟩
    have h1 := congrArg Prod.fst he
    have h2 := congrArg Prod.snd he
    simp only at h1 h2
    rw [Prod.ext_iff]
    constructor
    · simp only
      omega
    · simp only
      omega
  · rintro ⟨d, hd, he⟩
    refine ⟨d, hd, ?_⟩
    have h1 := congrArg Prod.fst he
    have h2 := congrArg Prod.snd he
    simp only at h1 h2
    rw [Prod.ext_iff]
    constructor
    · simp only
      omega
    · simp only
      omega

theorem adjacent_congr_km (km : List Pos)
    (hkm : ∀ d : Pos, d ∈ km ↔ d ∈ BASE_KNIGHT_MOVES) (p q : Pos) :
    adjacent km p q ↔ adjacent BASE_KNIGHT_MOVES p q := by
  unfold adjacent
  constructor
  · rintro ⟨d, hd, rfl⟩
    exact ⟨d, (hkm d).mp hd, rfl⟩
  · rintro ⟨d, hd, rfl⟩
    exact ⟨d, (hkm d).mpr hd, rfl⟩

theorem can_connect_iff (km : List Pos) (x1 y1 x2 y2 : Int) :
    _can_connect km x1 y1 x2 y2 = true ↔ adjacent km (x1, y1) (x2, y2) := by
  unfold _can_connect adjacent addOff
  rw [List.any_eq_true]
  constructor
  · rintro ⟨d, hd, hdec⟩
    rw [decide_eq_true_eq] at hdec
    refine ⟨d, hd, ?_⟩
    rw [Prod.ext_iff]
    exact ⟨hdec.1.symm, hdec.2.symm⟩
  · rintro ⟨d, hd, he⟩
    refine ⟨d, hd, ?_⟩
    rw [decide_eq_true_eq]
    rw [Prod.ext_iff] at he
    exact ⟨he.1.symm, he.2.symm⟩

theorem tourOf_nodup (stack : List Situation)
    (hnd : stack.Pairwise (fun f g => posOf f ≠ posOf g)) :
    (tourOf stack).Nodup := by
  unfold tourOf
  exact List.Pairwise.map posOf (fun a b h => h)
    (List.pairwise_reverse.mpr (hnd.imp fun h => h.symm))

theorem tourOf_interior (cfg : Config) (km : List Pos)
    (stack : List Situation) (hch : ChainOK cfg km stack) :
    ∀ p ∈ tourOf stack, interiorCell cfg p := by
  intro p hp
  obtain ⟨f, hf, rfl⟩ := List.mem_map.mp hp
  exact chainOK_interior cfg km stack hch f (List.mem_reverse.mp hf)

theorem tourOf_get (stack : List Situation) (i : Nat)
    (hi : i < (tourOf stack).length) (hj : stack.length - 1 - i < stack.length) :
    (tourOf stack).get ⟨i, hi⟩ = posOf (stack.get ⟨stack.length - 1 - i, hj⟩) := by
  unfold tourOf at hi ⊢
  rw [List.get_eq_getElem, List.getElem_map, List.get_eq_getElem]
  have hrev : i < stack.reverse.length := by
    rw [List.length_reverse]
    rw [List.length_map, List.length_reverse] at hi
    exact hi
  rw [List.getElem_reverse hrev]

theorem chainOK_get_adjacent2 (cfg : Config) (km : List Pos)
    (stack : List Situation) (hch : ChainOK cfg km stack) (j k : Nat)
    (hj : j < stack.length) (hk : k < stack.length) (hjk : j = k + 1) :
    adjacent km (posOf (stack.get ⟨j, hj⟩)) (posOf (stack.get ⟨k, hk⟩)) := by
  subst hjk
  exact chainOK_get_adjacent cfg km stack hch k hj hk

theorem tourOf_chain (cfg : Config) (km : List Pos) (stack : List Situation)
    (hch : ChainOK cfg km stack) :
    List.Chain' (adjacent km) (tourOf stack) := by
  rw [List.chain'_iff_get]
  intro i hi
  have hlen := tourOf_length stack
  have h0 : i < (tourOf stack).length := by omega
  have h1 : i + 1 < (tourOf stack).length := by omega
  have hj0 : stack.length - 1 - i < stack.length := by omega
  have hj1 : stack.length - 1 - (i + 1) < stack.length := by omega
  rw [tourOf_get stack i h0 hj0, tourOf_get stack (i + 1) h1 hj1]
  exact chainOK_get_adjacent2 cfg km stack hch _ _ hj0 hj1 (by omega)

theorem solve_eq (cfg : Config) (km : List Pos) (fuel : Nat) :
    solve cfg km fuel = solveLoop cfg km fuel (initPlainState cfg km).1
      (initPlainState cfg km).2.1 (initPlainState cfg km).2.2 := rfl

/-- Bundle of conclusions available after any successful run of `solve`. -/
theorem solve_true_shape (cfg : Config) (km : List Pos) (fuel : Nat)
    (hsx1 : 0 ≤ cfg.start_x) (hsx2 : cfg.start_x < cfg.width)
    (hsy1 : 0 ≤ cfg.start_y) (hsy2 : cfg.start_y < cfg.height)
    (hfound : solveFound cfg km fuel = some true) :
    ∃ (cur : Situation) (rest : List Situation),
      PlainInv cfg km (boardOfStack cfg (cur :: rest)) (cur :: rest) ∧
      cur.move_num + 1 = cfg.width * cfg.height ∧
      (cfg.closed = true →
        _can_connect km cur.x cur.y (start_px cfg) (start_py cfg) = true) ∧
      solvePath cfg km fuel =
        some ((tourOf (cur :: rest)).map (fun p => some (p.1 - 2, p.2 - 2))) ∧
      ((cur :: rest).length : Int) = cfg.width * cfg.height := by
  unfold solveFound at hfound
  cases hsol : solve cfg km fuel with
  | none =>
    rw [hsol] at hfound
    exact absurd hfound (by simp)
  | some r =>
    rw [hsol] at hfound
    obtain ⟨found, b', tr'⟩ := r
    have hf : found = true := Option.some.inj hfound
    subst hf
    have hloop : solveLoop cfg km fuel (initPlainState cfg km).1
        (initPlainState cfg km).2.1 (initPlainState cfg km).2.2 =
          some (true, b', tr') := hsol
    obtain ⟨cur, rest, hinv, hcomp, hconn⟩ := solveLoop_true cfg km fuel _ _ _ b' tr'
      (initPlainState_inv cfg km hsx1 hsx2 hsy1 hsy2) hloop
    have hlenf : ((cur :: rest).length : Int) = cfg.width * cfg.height := by
      have hhead := chainOK_head_num cfg km rest cur hinv.chain
      omega
    have hb' : b' = boardOfStack cfg (cur :: rest) := hinv.boardEq
    refine ⟨cur, rest, hb' ▸ hinv, hcomp, hconn, ?_, hlenf⟩
    unfold solvePath
    rw [hsol, Option.map_some']
    rw [show get_path cfg (true, b', tr').2.1 = get_path cfg b' from rfl, hb']
    rw [get_path_boardOfStack cfg km (cur :: rest) hinv.chain hinv.nodup hlenf]

-- ------------------------------------------------------------
-- C1: a successful open search yields a full knight's tour
-- ------------------------------------------------------------

/-- C1: whenever `solve` succeeds with the closed flag off (start in range,
move list the 8 knight offsets in any order), `get_path` yields exactly
`width·height` distinct in-bounds positions covering every cell once, with
consecutive entries a knight offset apart. -/
theorem C1_open_tour (cfg : Config) (km : List Pos) (fuel : Nat)
    (hkm : ∀ d : Pos, d ∈ km ↔ d ∈ BASE_KNIGHT_MOVES)
    (hsx1 : 0 ≤ cfg.start_x) (hsx2 : cfg.start_x < cfg.width)
    (hsy1 : 0 ≤ cfg.start_y) (hsy2 : cfg.start_y < cfg.height)
    (hclosed : cfg.closed = false)
    (hfound : solveFound cfg km fuel = some true) :
    ∃ q : List Pos,
      solvePath cfg km fuel = some (q.map some) ∧
      (q.length : Int) = cfg.width * cfg.height ∧
      q.Nodup ∧
      (∀ p ∈ q, 0 ≤ p.1 ∧ p.1 < cfg.width ∧ 0 ≤ p.2 ∧ p.2 < cfg.height) ∧
      (∀ p : Pos, 0 ≤ p.1 → p.1 < cfg.width → 0 ≤ p.2 → p.2 < cfg.height →
        p ∈ q) ∧
      List.Chain' (adjacent BASE_KNIGHT_MOVES) q := by
  obtain ⟨cur, rest, hinv, hcomp, _, hpath, hlenf⟩ :=
    solve_true_shape cfg km fuel hsx1 hsx2 hsy1 hsy2 hfound
  set stackf := cur :: rest with hstackf
  have hshiftInj : Function.Injective (fun p : Pos => (p.1 - 2, p.2 - 2)) := by
    intro a b h
    have h1 := congrArg Prod.fst h
    have h2 := congrArg Prod.snd h
    simp only at h1 h2
    rw [Prod.ext_iff]
    omega
  have htlen : ((tourOf stackf).length : Int) = cfg.width * cfg.height := by
    rw [tourOf_length]
    exact hlenf
  refine ⟨(tourOf stackf).map (fun p => (p.1 - 2, p.2 - 2)), ?_, ?_, ?_, ?_, ?_, ?_⟩
  · rw [hpath, List.map_map]
    rfl
  · rw [List.length_map]
    exact htlen
  · exact List.Nodup.map hshiftInj (tourOf_nodup stackf hinv.nodup)
  · intro p hp
    obtain ⟨p0, hp0, rfl⟩ := List.mem_map.mp hp
    have hint := tourOf_interior cfg km stackf hinv.chain p0 hp0
    obtain ⟨i1, i2, i3, i4⟩ := hint
    simp only
    omega
  · intro p h1 h2 h3 h4
    have hintp : interiorCell cfg (p.1 + 2, p.2 + 2) := by
      unfold interiorCell
      simp only
      omega
    have hcard : (tourOf stackf).length = (interiorFinset cfg).card := by
      rw [interiorFinset_card cfg (by omega) (by omega)]
      omega
    have hcov := tour_coverage cfg (tourOf stackf)
      (tourOf_nodup stackf hinv.nodup)
      (tourOf_interior cfg km stackf hinv.chain) hcard
      (p.1 + 2, p.2 + 2) hintp
    apply List.mem_map.mpr
    refine ⟨(p.1 + 2, p.2 + 2), hcov, ?_⟩
    simp only
    rw [Prod.ext_iff]
    constructor
    · simp only
      omega
    · simp only
      omega
  · rw [List.chain'_map]
    apply List.Chain'.imp ?_ (tourOf_chain cfg km stackf hinv.chain)
    intro a b hab
    rw [adjacent_shift BASE_KNIGHT_MOVES a b]
    exact (adjacent_congr_km km hkm a b).mp hab

theorem C1_open_tour_witness :
    ∃ q : List Pos,
      solvePath cfgC1 BASE_KNIGHT_MOVES 20 = some (q.map some) ∧
      (q.length : Int) = cfgC1.width * cfgC1.height ∧
      q.Nodup ∧
      (∀ p ∈ q, 0 ≤ p.1 ∧ p.1 < cfgC1.width ∧ 0 ≤ p.2 ∧ p.2 < cfgC1.height) ∧
      (∀ p : Pos, 0 ≤ p.1 → p.1 < cfgC1.width → 0 ≤ p.2 → p.2 < cfgC1.height →
        p ∈ q) ∧
      List.Chain' (adjacent BASE_KNIGHT_MOVES) q :=
  C1_open_tour cfgC1 BASE_KNIGHT_MOVES 20 (fun d => Iff.rfl)
    (by decide) (by decide) (by decide) (by decide) (by decide) (by rfl)

-- ------------------------------------------------------------
-- C3: the closed-tour gate
-- ------------------------------------------------------------

/-- C3: at a full board in closed mode, one loop iteration of `solve` returns
true exactly when the current square has a knight move back to the start;
otherwise it falls through to the candidate/backtrack logic of the same
iteration instead of failing the branch.  Consequently every successful
closed-mode run ends on a square that is knight-adjacent to its first. -/
theorem C3_closed_gate (cfg : Config) (km : List Pos) :
    (∀ (b : Board) (tr : Int) (cur : Situation) (rest : List Situation),
      cur.move_num + 1 = cfg.width * cfg.height → cfg.closed = true →
        ((plainStep cfg km b tr (cur :: rest) = .done true b tr ↔
          _can_connect km cur.x cur.y (start_px cfg) (start_py cfg) = true) ∧
        (_can_connect km cur.x cur.y (start_px cfg) (start_py cfg) = false →
          plainStep cfg km b tr (cur :: rest) =
            plainAdvance cfg km b tr cur rest))) ∧
    (∀ (fuel : Nat),
      (∀ d : Pos, d ∈ km ↔ d ∈ BASE_KNIGHT_MOVES) →
      0 ≤ cfg.start_x → cfg.start_x < cfg.width →
      0 ≤ cfg.start_y → cfg.start_y < cfg.height →
      cfg.closed = true →
      solveFound cfg km fuel = some true →
      ∃ (q : List Pos) (p₀ p₁ : Pos),
        solvePath cfg km fuel = some (q.map some) ∧
        q.head? = some p₀ ∧ q.getLast? = some p₁ ∧
        adjacent BASE_KNIGHT_MOVES p₁ p₀) := by
  constructor
  · intro b tr cur rest hcomp hclosed
    rw [plainStep_cons, if_pos hcomp, if_pos hclosed]
    constructor
    · by_cases hconn : _can_connect km cur.x cur.y (start_px cfg) (start_py cfg) = true
      · rw [if_pos hconn]
        exact ⟨fun _ => hconn, fun _ => rfl⟩
      · rw [if_neg hconn]
        constructor
        · intro habs
          exact absurd habs (plainAdvance_not_done cfg km b tr cur rest _ _ _)
        · intro hc
          exact absurd hc hconn
    · intro hfalse
      rw [if_neg (by rw [hfalse]; exact Bool.false_ne_true)]
  · intro fuel hkm hsx1 hsx2 hsy1 hsy2 hclosed hfound
    obtain ⟨cur, rest, hinv, hcomp, hconn, hpath, hlenf⟩ :=
      solve_true_shape cfg km fuel hsx1 hsx2 hsy1 hsy2 hfound
    set stackf := cur :: rest with hstackf
    have hne : stackf ≠ [] := List.cons_ne_nil cur rest
    have hstart := chainOK_getLast cfg km rest cur hinv.chain
    have hconn' := hconn hclosed
    have hadj : adjacent km (posOf cur) (start_px cfg, start_py cfg) := by
      have := (can_connect_iff km cur.x cur.y (start_px cfg) (start_py cfg)).mp hconn'
      exact this
    refine ⟨(tourOf stackf).map (fun p => (p.1 - 2, p.2 - 2)),
      (start_px cfg - 2, start_py cfg - 2),
      ((posOf cur).1 - 2, (posOf cur).2 - 2), ?_, ?_, ?_, ?_⟩
    · rw [hpath, List.map_map]
      rfl
    · rw [List.head?_map]
      unfold tourOf
      rw [List.head?_map, List.head?_reverse, List.getLast?_eq_getLast stackf hne]
      have hstart' : posOf (stackf.getLast hne) = (start_px cfg, start_py cfg) :=
        hstart
      rw [Option.map_some', Option.map_some', hstart']
    · rw [List.getLast?_map]
      unfold tourOf
      rw [List.getLast?_map, List.getLast?_reverse]
      rw [show stackf.head? = some cur from rfl]
      rfl
    · have := (adjacent_congr_km km hkm (posOf cur)
        (start_px cfg, start_py cfg)).mp hadj
      rw [← adjacent_shift BASE_KNIGHT_MOVES (posOf cur)
        (start_px cfg, start_py cfg)] at this
      exact this

theorem C3_closed_gate_witness :
    (plainStep cfgC3 BASE_KNIGHT_MOVES (initBoard 3 10) 0
        ({ x := 2, y := 3, move_num := 29, moves := [], next_index := 0 } :: []) =
          .done true (initBoard 3 10) 0 ↔
      _can_connect BASE_KNIGHT_MOVES 2 3 (start_px cfgC3) (start_py cfgC3) = true) ∧
    (∃ (q : List Pos) (p₀ p₁ : Pos),
      solvePath cfgC3 BASE_KNIGHT_MOVES 40 = some (q.map some) ∧
      q.head? = some p₀ ∧ q.getLast? = some p₁ ∧
      adjacent BASE_KNIGHT_MOVES p₁ p₀) := by
  constructor
  · exact ((C3_closed_gate cfgC3 BASE_KNIGHT_MOVES).1 (initBoard 3 10) 0
      { x := 2, y := 3, move_num := 29, moves := [], next_index := 0 } []
      (by decide) (by decide)).1
  · exact (C3_closed_gate cfgC3 BASE_KNIGHT_MOVES).2 40 (fun d => Iff.rfl)
      (by decide) (by decide) (by decide) (by decide) (by decide) (by rfl)

-- ------------------------------------------------------------
-- Basic lemmas about `boardOfSymStack`
-- ------------------------------------------------------------

theorem pairwise_pos_inj (stack : List Situation)
    (hnd : stack.Pairwise (fun f g => posOf f ≠ posOf g)) :
    ∀ f ∈ stack, ∀ g ∈ stack, posOf f = posOf g → f = g := by
  induction stack with
  | nil =>
    intro f hf
    cases hf
  | cons a l ih =>
    intro f hf g hg heq
    rw [List.pairwise_cons] at hnd
    rcases List.mem_cons.mp hf with rfl | hf' <;>
      rcases List.mem_cons.mp hg with rfl | hg'
    · rfl
    · exact absurd heq (hnd.1 g hg')
    · exact absurd heq.symm (hnd.1 f hf')
    · exact ih hnd.2 f hf' g hg' heq

theorem find?_posOf (stack : List Situation)
    (hnd : stack.Pairwise (fun f g => posOf f ≠ posOf g)) (f : Situation)
    (hf : f ∈ stack) :
    stack.find? (fun g => decide (g.x = f.x ∧ g.y = f.y)) = some f := by
  apply find?_eq_some_unique _ _ f hf
  · simp
  · intro g hg hdec
    simp only [decide_eq_true_eq] at hdec
    exact pairwise_pos_inj stack hnd g hg f hf
      (by simp [posOf, Prod.ext_iff, hdec.1, hdec.2])

theorem boardOfSymStack_posOf (cfg : Config) (m : SymmetryMode)
    (stack : List Situation)
    (hnd : stack.Pairwise (fun f g => posOf f ≠ posOf g)) (f : Situation)
    (hf : f ∈ stack) :
    boardOfSymStack cfg m stack f.y f.x = f.move_num := by
  unfold boardOfSymStack
  rw [find?_posOf stack hnd f hf]

theorem boardOfSymStack_not_mem (cfg : Config) (m : SymmetryMode)
    (stack : List Situation) (x y : Int)
    (hnp : ∀ f ∈ stack, posOf f ≠ (x, y)) :
    boardOfSymStack cfg m stack y x =
      if stack.any (fun f => decide (mirrorOf cfg m (posOf f) = (x, y))) then
        MIRROR_BLOCKED
      else initBoard cfg.width cfg.height y x := by
  unfold boardOfSymStack
  rw [show stack.find? (fun f => decide (f.x = x ∧ f.y = y)) = none from
    List.find?_eq_none.mpr ?_]
  intro g hg
  simp only [decide_eq_true_eq]
  intro hc
  exact hnp g hg ((posOf_eq_iff g x y).mpr hc)

theorem boardOfSymStack_pos_value (cfg : Config) (m : SymmetryMode)
    (stack : List Situation) (y x v : Int)
    (hv : boardOfSymStack cfg m stack y x = v) (h0 : 0 ≤ v) :
    ∃ g ∈ stack, posOf g = (x, y) ∧ g.move_num = v := by
  unfold boardOfSymStack at hv
  cases hfind : stack.find? (fun f => decide (f.x = x ∧ f.y = y)) with
  | some f =>
    rw [hfind] at hv
    have hpf := List.find?_some hfind
    simp only [decide_eq_true_eq] at hpf
    exact ⟨f, List.mem_of_find?_eq_some hfind,
      (posOf_eq_iff f x y).mpr hpf, hv⟩
  | none =>
    rw [hfind] at hv
    by_cases hany : stack.any (fun f => decide (mirrorOf cfg m (posOf f) = (x, y))) = true
    · have hv' : MIRROR_BLOCKED = v := by
        rw [← hv]
        simp [hany]
      rw [MIRROR_BLOCKED] at hv'
      omega
    · have hv' : initBoard cfg.width cfg.height y x = v := by
        rw [← hv]
        simp [hany]
      have hneg := initBoard_neg cfg.width cfg.height y x
      rw [hv'] at hneg
      omega

theorem boardOfSymStack_eq_EMPTY_iff (cfg : Config) (m : SymmetryMode)
    (stack : List Situation) (y x : Int)
    (hnn : ∀ f ∈ stack, 0 ≤ f.move_num) :
    boardOfSymStack cfg m stack y x = EMPTY ↔
      interiorCell cfg (x, y) ∧ (∀ f ∈ stack, posOf f ≠ (x, y)) ∧
        (∀ f ∈ stack, mirrorOf cfg m (posOf f) ≠ (x, y)) := by
  constructor
  · intro h
    unfold boardOfSymStack at h
    cases hfind : stack.find? (fun f => decide (f.x = x ∧ f.y = y)) with
    | some f =>
      rw [hfind] at h
      have h0 := hnn f (List.mem_of_find?_eq_some hfind)
      have h' : f.move_num = EMPTY := h
      rw [EMPTY] at h'
      omega
    | none =>
      rw [hfind] at h
      by_cases hany : stack.any (fun f => decide (mirrorOf cfg m (posOf f) = (x, y))) = true
      · have h' : MIRROR_BLOCKED = EMPTY := by
          rw [← h]
          simp [hany]
        norm_num [MIRROR_BLOCKED, EMPTY] at h'
      · have h' : initBoard cfg.width cfg.height y x = EMPTY := by
          rw [← h]
          simp [hany]
        rw [Bool.not_eq_true] at hany
        rw [List.any_eq_false] at hany
        refine ⟨(initBoard_eq_EMPTY_iff cfg x y).mp h', ?_, ?_⟩
        · intro f hf hc
          have := List.find?_eq_none.mp hfind f hf
          apply this
          obtain ⟨h1, h2⟩ := (posOf_eq_iff f x y).mp hc
          simp [h1, h2]
        · intro f hf hc
          exact hany f hf (by simp [hc])
  · rintro ⟨hint, hnp, hnm⟩
    rw [boardOfSymStack_not_mem cfg m stack x y hnp]
    rw [if_neg ?_, (initBoard_eq_EMPTY_iff cfg x y).mpr hint]
    rw [List.any_eq_true]
    rintro ⟨f, hf, hdec⟩
    simp only [decide_eq_true_eq] at hdec
    exact hnm f hf hdec

theorem boardOfSymStack_congr (cfg : Config) (m : SymmetryMode) :
    ∀ s₁ s₂ : List Situation, s₁.map frameCore = s₂.map frameCore →
      boardOfSymStack cfg m s₁ = boardOfSymStack cfg m s₂ := by
  have hfind : ∀ s₁ s₂ : List Situation, s₁.map frameCore = s₂.map frameCore →
      ∀ x y : Int,
        (s₁.find? (fun f => decide (f.x = x ∧ f.y = y))).map frameCore =
          (s₂.find? (fun f => decide (f.x = x ∧ f.y = y))).map frameCore ∧
        s₁.any (fun f => decide (mirrorOf cfg m (posOf f) = (x, y))) =
          s₂.any (fun f => decide (mirrorOf cfg m (posOf f) = (x, y))) := by
    intro s₁
    induction s₁ with
    | nil =>
      intro s₂ h x y
      cases s₂ with
      | nil => exact ⟨rfl, rfl⟩
      | cons g r => simp at h
    | cons f rest ih =>
      intro s₂ h x y
      cases s₂ with
      | nil => simp at h
      | cons g rest₂ =>
        simp only [List.map_cons, List.cons.injEq] at h
        obtain ⟨hfg, hrest⟩ := h
        obtain ⟨e1, e2, e3⟩ : f.x = g.x ∧ f.y = g.y ∧ f.move_num = g.move_num := by
          simpa [frameCore, Prod.ext_iff] using hfg
        have hpos : posOf f = posOf g := by
          simp [posOf, e1, e2]
        constructor
        · rw [List.find?_cons, List.find?_cons, e1, e2]
          cases hdec : decide (g.x = x ∧ g.y = y) with
          | true =>
            show some (frameCore f) = some (frameCore g)
            simp [frameCore, e1, e2, e3]
          | false =>
            exact (ih rest₂ hrest x y).1
        · rw [List.any_cons, List.any_cons, hpos, (ih rest₂ hrest x y).2]
  intro s₁ s₂ h
  funext y x
  unfold boardOfSymStack
  obtain ⟨h1, h2⟩ := hfind s₁ s₂ h x y
  cases hf1 : s₁.find? (fun f => decide (f.x = x ∧ f.y = y)) with
  | some f =>
    rw [hf1] at h1
    cases hf2 : s₂.find? (fun f => decide (f.x = x ∧ f.y = y)) with
    | some g =>
      rw [hf2] at h1
      simp only [Option.map_some'] at h1
      have hmn : f.move_num = g.move_num := by
        have := congrArg (fun t : Int × Int × Int => t.2.2) (Option.some.inj h1)
        simpa [frameCore] using this
      show f.move_num = g.move_num
      exact hmn
    | none =>
      rw [hf2] at h1
      simp at h1
  | none =>
    rw [hf1] at h1
    cases hf2 : s₂.find? (fun f => decide (f.x = x ∧ f.y = y)) with
    | some g =>
      rw [hf2] at h1
      simp at h1
    | none =>
      rw [hf2] at h1
      show (if s₁.any (fun f => decide (mirrorOf cfg m (posOf f) = (x, y))) then
          MIRROR_BLOCKED else initBoard cfg.width cfg.height y x) =
        (if s₂.any (fun f => decide (mirrorOf cfg m (posOf f) = (x, y))) then
          MIRROR_BLOCKED else initBoard cfg.width cfg.height y x)
      rw [h2]

-- ------------------------------------------------------------
-- Symmetric loop: step shape lemmas
-- ------------------------------------------------------------

theorem symStep_nil (cfg : Config) (km : List Pos) (m : SymmetryMode)
    (b : Board) (tr : Int) : symStep cfg km m b tr [] = .done false b tr := rfl

theorem symStep_cons (cfg : Config) (km : List Pos) (m : SymmetryMode)
    (b : Board) (tr : Int) (cur : Situation) (rest : List Situation) :
    symStep cfg km m b tr (cur :: rest) =
      if limitHit cfg tr then .done false b tr
      else if cur.move_num + 1 = half_squares cfg then
        if _can_connect km cur.x cur.y
            (mirrorOf cfg m (start_px cfg, start_py cfg)).1
            (mirrorOf cfg m (start_px cfg, start_py cfg)).2 then
          .done true (_renumber_symmetric_path cfg m b) tr
        else symAdvance cfg km m b tr cur rest
      else symAdvance cfg km m b tr cur rest := rfl

theorem symAdvance_not_done (cfg : Config) (km : List Pos) (m : SymmetryMode)
    (b : Board) (tr : Int) (cur : Situation) (rest : List Situation) (r : Bool)
    (b0 : Board) (t0 : Int) :
    symAdvance cfg km m b tr cur rest ≠ .done r b0 t0 := by
  unfold symAdvance
  by_cases hidx : cur.next_index < cur.moves.length
  · rw [dif_pos hidx]
    dsimp only
    by_cases hskip : b (cur.moves.get ⟨cur.next_index, hidx⟩).2
        (cur.moves.get ⟨cur.next_index, hidx⟩).1 ≠ EMPTY
    · rw [if_pos hskip]
      exact fun h => StepRes.noConfusion h
    · rw [if_neg hskip]
      exact fun h => StepRes.noConfusion h
  · rw [dif_neg hidx]
    by_cases hmn : cur.move_num > 0
    · rw [if_pos hmn]
      exact fun h => StepRes.noConfusion h
    · rw [if_neg hmn]
      exact fun h => StepRes.noConfusion h

theorem boardOfSymStack_cons_skip (cfg : Config) (m : SymmetryMode)
    (f : Situation) (stack : List Situation) (y x : Int)
    (hpos : posOf f ≠ (x, y)) (hmir : mirrorOf cfg m (posOf f) ≠ (x, y)) :
    boardOfSymStack cfg m (f :: stack) y x = boardOfSymStack cfg m stack y x := by
  unfold boardOfSymStack
  rw [List.find?_cons, List.any_cons]
  have hdec : decide (f.x = x ∧ f.y = y) = false := by
    apply decide_eq_false
    intro hc
    exact hpos ((posOf_eq_iff f x y).mpr hc)
  have hdec2 : decide (mirrorOf cfg m (posOf f) = (x, y)) = false :=
    decide_eq_false hmir
  rw [hdec, hdec2, Bool.false_or]

theorem boardOfSymStack_mirror (cfg : Config) (m : SymmetryMode)
    (stack : List Situation) (g : Situation) (hg : g ∈ stack)
    (hnp : ∀ f ∈ stack, posOf f ≠ mirrorOf cfg m (posOf g)) :
    boardOfSymStack cfg m stack (mirrorOf cfg m (posOf g)).2
      (mirrorOf cfg m (posOf g)).1 = MIRROR_BLOCKED := by
  rw [boardOfSymStack_not_mem cfg m stack (mirrorOf cfg m (posOf g)).1
    (mirrorOf cfg m (posOf g)).2 (fun f hf => hnp f hf), if_pos]
  rw [List.any_eq_true]
  exact ⟨g, hg, by simp⟩

-- ------------------------------------------------------------
-- Preservation of the symmetric-loop invariant
-- ------------------------------------------------------------

theorem symInv_bump (cfg : Config) (km : List Pos) (m : SymmetryMode)
    (b : Board) (cur : Situation) (rest : List Situation) (k : Nat)
    (hinv : SymInv cfg km m b (cur :: rest)) :
    SymInv cfg km m b ({ cur with next_index := k } :: rest) := by
  obtain ⟨hch, hnd, hmix, hmadj, hbd⟩ := hinv
  have hcore : ({ cur with next_index := k } :: rest).map frameCore =
      (cur :: rest).map frameCore := by
    simp [frameCore]
  refine ⟨chainOK_congr_head cfg km cur _ rest rfl rfl rfl hch, ?_, ?_, ?_, ?_⟩
  · rw [List.pairwise_cons] at hnd ⊢
    exact ⟨fun g hg => hnd.1 g hg, hnd.2⟩
  · intro f hf g hg
    rcases List.mem_cons.mp hf with rfl | hf' <;>
      rcases List.mem_cons.mp hg with rfl | hg'
    · exact hmix cur (List.mem_cons_self cur rest) cur (List.mem_cons_self cur rest)
    · exact hmix cur (List.mem_cons_self cur rest) g (List.mem_cons_of_mem cur hg')
    · exact hmix f (List.mem_cons_of_mem cur hf') cur (List.mem_cons_self cur rest)
    · exact hmix f (List.mem_cons_of_mem cur hf') g (List.mem_cons_of_mem cur hg')
  · intro f hf c hc
    rcases List.mem_cons.mp hf with rfl | hf'
    · exact hmadj cur (List.mem_cons_self cur rest) c hc
    · exact hmadj f (List.mem_cons_of_mem cur hf') c hc
  · intro _
    rw [hbd (List.cons_ne_nil cur rest)]
    exact boardOfSymStack_congr cfg m _ _ hcore.symm

theorem symAdvance_inv (cfg : Config) (km : List Pos) (m : SymmetryMode)
    (hpar : parityOK cfg m) (b : Board) (tr : Int) (cur : Situation)
    (rest : List Situation) (hinv : SymInv cfg km m b (cur :: rest))
    (b' : Board) (tr' : Int) (st' : List Situation)
    (heq : symAdvance cfg km m b tr cur rest = .next b' tr' st') :
    SymInv cfg km m b' st' := by
  have hch := hinv.chain
  have hnd := hinv.nodup
  have hmix := hinv.nomix
  have hmadj := hinv.movesAdj
  have hbd' := hinv.boardEq (List.cons_ne_nil cur rest)
  have hnonneg : ∀ f ∈ cur :: rest, 0 ≤ f.move_num :=
    chainOK_nonneg cfg km (cur :: rest) hch
  unfold symAdvance at heq
  by_cases hidx : cur.next_index < cur.moves.length
  · rw [dif_pos hidx] at heq
    dsimp only at heq
    set c := cur.moves.get ⟨cur.next_index, hidx⟩ with hcdef
    by_cases hskip : b c.2 c.1 ≠ EMPTY
    · rw [if_pos hskip] at heq
      injection heq with e1 e2 e3
      subst e1
      subst e2
      subst e3
      exact symInv_bump cfg km m b cur rest (cur.next_index + 1) hinv
    · rw [if_neg hskip] at heq
      injection heq with e1 e2 e3
      subst e1
      subst e2
      subst e3
      push_neg at hskip
      rw [hbd'] at hskip
      obtain ⟨hint, hnp, hnm⟩ :=
        (boardOfSymStack_eq_EMPTY_iff cfg m (cur :: rest) c.2 c.1 hnonneg).mp hskip
      have hceta : (c.1, c.2) = c := rfl
      rw [hceta] at hnp hnm
      set mc := mirrorOf cfg m c with hmcdef
      have hmcne : mc ≠ c := parityOK_ne_self cfg m c hpar
      have hmc_notpos : ∀ g ∈ cur :: rest, posOf g ≠ mc := by
        intro g hg hcontra
        apply hnm g hg
        rw [hcontra, hmcdef, mirrorOf_invol]
      set cur' : Situation := { cur with next_index := cur.next_index + 1 }
        with hcur'
      set newF : Situation :=
        { x := c.1, y := c.2, move_num := cur.move_num + 1,
          moves := (move_generator cfg km
            (setCell (setCell b c.2 c.1 (cur.move_num + 1)) mc.2 mc.1
              MIRROR_BLOCKED) tr c.1 c.2).1,
          next_index := 0 } with hnewF
      have hposOf_newF : posOf newF = c := rfl
      have hbump := symInv_bump cfg km m b cur rest (cur.next_index + 1) hinv
      have hcore : (cur' :: rest).map frameCore = (cur :: rest).map frameCore := by
        simp [frameCore, hcur']
      have hbd2 : b = boardOfSymStack cfg m (cur' :: rest) := by
        rw [hbd']
        exact boardOfSymStack_congr cfg m _ _ hcore.symm
      have hnp' : ∀ g ∈ cur' :: rest, posOf g ≠ c := by
        intro g hg
        rcases List.mem_cons.mp hg with rfl | hg'
        · exact hnp cur (List.mem_cons_self cur rest)
        · exact hnp g (List.mem_cons_of_mem cur hg')
      have hnm' : ∀ g ∈ cur' :: rest, mirrorOf cfg m (posOf g) ≠ c := by
        intro g hg
        rcases List.mem_cons.mp hg with rfl | hg'
        · exact hnm cur (List.mem_cons_self cur rest)
        · exact hnm g (List.mem_cons_of_mem cur hg')
      have hmc_notpos' : ∀ g ∈ cur' :: rest, posOf g ≠ mc := by
        intro g hg
        rcases List.mem_cons.mp hg with rfl | hg'
        · exact hmc_notpos cur (List.mem_cons_self cur rest)
        · exact hmc_notpos g (List.mem_cons_of_mem cur hg')
      have hchain' : ChainOK cfg km (newF :: cur' :: rest) := by
        refine ⟨rfl, ?_, ?_, hbump.chain⟩
        · have := hmadj cur (List.mem_cons_self cur rest) c
            (List.mem_of_mem_drop (mem_remaining_get cur hidx))
          exact this
        · exact hint
      have hnodup' : (newF :: cur' :: rest).Pairwise
          (fun f g => posOf f ≠ posOf g) := by
        rw [List.pairwise_cons]
        refine ⟨fun g hg hne => hnp' g hg hne.symm, hbump.nodup⟩
      have hboard' : setCell (setCell b c.2 c.1 (cur.move_num + 1)) mc.2 mc.1
          MIRROR_BLOCKED = boardOfSymStack cfg m (newF :: cur' :: rest) := by
        funext y x
        by_cases hA : (x, y) = mc
        · have hA1 : mc.1 = x := (congrArg Prod.fst hA).symm
          have hA2 : mc.2 = y := (congrArg Prod.snd hA).symm
          rw [setCell, if_pos ⟨hA2.symm, hA1.symm⟩]
          have hmc_eq : mirrorOf cfg m (posOf newF) = mc := by
            rw [hposOf_newF]
          have := boardOfSymStack_mirror cfg m (newF :: cur' :: rest) newF
            (List.mem_cons_self newF _) ?_
          · rw [hposOf_newF, ← hmcdef] at this
            rw [hA1, hA2] at this
            exact this.symm
          · intro f hf
            rw [hposOf_newF, ← hmcdef]
            rcases List.mem_cons.mp hf with rfl | hf'
            · rw [hposOf_newF]
              exact fun hcc => hmcne hcc.symm
            · exact hmc_notpos' f hf'
        · rw [setCell]
          rw [if_neg (fun hc => hA (Prod.ext_iff.mpr ⟨hc.2, hc.1⟩))]
          by_cases hB : (x, y) = c
          · have hB1 : c.1 = x := (congrArg Prod.fst hB).symm
            have hB2 : c.2 = y := (congrArg Prod.snd hB).symm
            rw [setCell, if_pos ⟨hB2.symm, hB1.symm⟩]
            have hval := boardOfSymStack_posOf cfg m (newF :: cur' :: rest) hnodup'
              newF (List.mem_cons_self newF _)
            rw [show newF.y = c.2 from rfl, show newF.x = c.1 from rfl,
              hB2, hB1] at hval
            exact hval.symm
          · rw [setCell, if_neg (fun hc => hB (Prod.ext_iff.mpr ⟨hc.2, hc.1⟩))]
            rw [hbd2]
            rw [boardOfSymStack_cons_skip cfg m newF (cur' :: rest) y x
              (fun hc => hB hc.symm) (fun hc => hA hc.symm)]
      have hmix' : ∀ f ∈ newF :: cur' :: rest, ∀ g ∈ newF :: cur' :: rest,
          mirrorOf cfg m (posOf g) ≠ posOf f := by
        intro f hf g hg
        rcases List.mem_cons.mp hf with rfl | hf' <;>
          rcases List.mem_cons.mp hg with rfl | hg'
        · rw [hposOf_newF, ← hmcdef]
          exact fun hcc => hmcne hcc
        · rw [hposOf_newF]
          exact hnm' g hg'
        · rw [hposOf_newF, ← hmcdef]
          intro hcc
          exact hmc_notpos' f hf' hcc.symm
        · exact hbump.nomix f hf' g hg'
      have hmadj' : ∀ f ∈ newF :: cur' :: rest, ∀ c' ∈ f.moves,
          adjacent km (posOf f) c' := by
        intro f hf c' hc'
        rcases List.mem_cons.mp hf with rfl | hf'
        · obtain ⟨d, hd, rfl, _⟩ := (mem_move_generator cfg km _ tr c.1 c.2 c').mp hc'
          exact ⟨d, hd, rfl⟩
        · exact hbump.movesAdj f hf' c' hc'
      exact ⟨hchain', hnodup', hmix', hmadj', fun _ => hboard'⟩
  · rw [dif_neg hidx] at heq
    by_cases hmn : cur.move_num > 0
    · rw [if_pos hmn] at heq
      injection heq with e1 e2 e3
      subst e1
      subst e2
      subst e3
      have hndt := (List.pairwise_cons.mp hnd).2
      have hcur_int : interiorCell cfg (posOf cur) :=
        chainOK_interior cfg km (cur :: rest) hch cur (List.mem_cons_self cur rest)
      set mc := mirrorOf cfg m (posOf cur) with hmcdef
      have hmcne : mc ≠ posOf cur := parityOK_ne_self cfg m (posOf cur) hpar
      have hcur_notin : ∀ g ∈ rest, posOf g ≠ posOf cur := by
        intro g hg h
        exact (List.pairwise_cons.mp hnd).1 g hg h.symm
      refine ⟨chainOK_tail cfg km cur rest hch, hndt, ?_, ?_, ?_⟩
      · intro f hf g hg
        exact hmix f (List.mem_cons_of_mem cur hf) g (List.mem_cons_of_mem cur hg)
      · intro f hf c hc
        exact hmadj f (List.mem_cons_of_mem cur hf) c hc
      · intro hne
        have hnnrest : ∀ f ∈ rest, 0 ≤ f.move_num :=
          fun f hf => hnonneg f (List.mem_cons_of_mem cur hf)
        funext y x
        by_cases hA : (x, y) = mc
        · have hA1 : mc.1 = x := (congrArg Prod.fst hA).symm
          have hA2 : mc.2 = y := (congrArg Prod.snd hA).symm
          rw [setCell, if_pos ⟨hA2.symm, hA1.symm⟩]
          have hRHS : boardOfSymStack cfg m rest y x = EMPTY := by
            rw [boardOfSymStack_eq_EMPTY_iff cfg m rest y x hnnrest]
            refine ⟨?_, ?_, ?_⟩
            · rw [hA]
              exact mirrorOf_interiorCell cfg m (posOf cur) hcur_int
            · intro f hf hcontra
              rw [hA] at hcontra
              exact hmix f (List.mem_cons_of_mem cur hf) cur
                (List.mem_cons_self cur rest) hcontra.symm
            · intro f hf hcontra
              rw [hA, hmcdef] at hcontra
              have := mirrorOf_injective cfg m hcontra
              exact hcur_notin f hf this
          exact hRHS.symm
        · rw [setCell, if_neg (fun hc => hA (Prod.ext_iff.mpr ⟨hc.2, hc.1⟩))]
          by_cases hB : (x, y) = posOf cur
          · have hB1' : cur.x = x := (congrArg Prod.fst hB).symm
            have hB2' : cur.y = y := (congrArg Prod.snd hB).symm
            rw [setCell, if_pos ⟨hB2'.symm, hB1'.symm⟩]
            have hRHS : boardOfSymStack cfg m rest y x = EMPTY := by
              rw [boardOfSymStack_eq_EMPTY_iff cfg m rest y x hnnrest]
              refine ⟨?_, ?_, ?_⟩
              · rw [hB]
                exact hcur_int
              · intro f hf hcontra
                rw [hB] at hcontra
                exact hcur_notin f hf hcontra
              · intro f hf hcontra
                rw [hB] at hcontra
                exact hmix cur (List.mem_cons_self cur rest) f
                  (List.mem_cons_of_mem cur hf) hcontra
            exact hRHS.symm
          · rw [setCell, if_neg (fun hc => hB (Prod.ext_iff.mpr ⟨hc.2, hc.1⟩))]
            rw [hbd']
            exact boardOfSymStack_cons_skip cfg m cur rest y x
              (fun hc => hB hc.symm) (fun hc => hA hc.symm)
    · rw [if_neg hmn] at heq
      injection heq with e1 e2 e3
      subst e1
      subst e2
      subst e3
      have hlen := chainOK_head_num cfg km rest cur hch
      have h0 : 0 ≤ cur.move_num := hnonneg cur (List.mem_cons_self cur rest)
      have hmn0 : cur.move_num = 0 := by omega
      have hrest : rest = [] := by
        rw [hmn0] at hlen
        have : ((cur :: rest).length : Int) = 1 := by omega
        rw [List.length_cons] at this
        have : rest.length = 0 := by
          push_cast at this
          omega
        exact List.length_eq_zero.mp this
      subst hrest
      refine ⟨trivial, List.Pairwise.nil, ?_, ?_, fun hne => absurd rfl hne⟩
      · intro f hf
        cases hf
      · intro f hf
        cases hf

-- ------------------------------------------------------------
-- Preservation through a full symmetric step, and the loop driver
-- ------------------------------------------------------------

theorem symStep_next_inv (cfg : Config) (km : List Pos) (m : SymmetryMode)
    (hpar : parityOK cfg m) (b : Board) (tr : Int) (stack : List Situation)
    (b' : Board) (tr' : Int) (st' : List Situation)
    (hinv : SymInv cfg km m b stack)
    (heq : symStep cfg km m b tr stack = .next b' tr' st') :
    SymInv cfg km m b' st' := by
  cases stack with
  | nil =>
    rw [symStep_nil] at heq
    exact absurd heq (fun h => StepRes.noConfusion h)
  | cons cur rest =>
    rw [symStep_cons] at heq
    by_cases h1 : limitHit cfg tr = true
    · rw [if_pos h1] at heq
      exact absurd heq (fun h => StepRes.noConfusion h)
    · rw [if_neg h1] at heq
      by_cases h2 : cur.move_num + 1 = half_squares cfg
      · rw [if_pos h2] at heq
        by_cases h3 : _can_connect km cur.x cur.y
            (mirrorOf cfg m (start_px cfg, start_py cfg)).1
            (mirrorOf cfg m (start_px cfg, start_py cfg)).2 = true
        · rw [if_pos h3] at heq
          exact absurd heq (fun h => StepRes.noConfusion h)
        · rw [if_neg h3] at heq
          exact symAdvance_inv cfg km m hpar b tr cur rest hinv b' tr' st' heq
      · rw [if_neg h2] at heq
        exact symAdvance_inv cfg km m hpar b tr cur rest hinv b' tr' st' heq

theorem symStep_done_true (cfg : Config) (km : List Pos) (m : SymmetryMode)
    (b : Board) (tr : Int) (stack : List Situation) (b' : Board) (tr' : Int)
    (heq : symStep cfg km m b tr stack = .done true b' tr') :
    tr' = tr ∧ ∃ cur rest, stack = cur :: rest ∧
      limitHit cfg tr = false ∧
      cur.move_num + 1 = half_squares cfg ∧
      _can_connect km cur.x cur.y
        (mirrorOf cfg m (start_px cfg, start_py cfg)).1
        (mirrorOf cfg m (start_px cfg, start_py cfg)).2 = true ∧
      b' = _renumber_symmetric_path cfg m b := by
  cases stack with
  | nil =>
    rw [symStep_nil] at heq
    injection heq with e1 e2 e3
    exact absurd e1 (by simp)
  | cons cur rest =>
    rw [symStep_cons] at heq
    by_cases h1 : limitHit cfg tr = true
    · rw [if_pos h1] at heq
      injection heq with e1 e2 e3
      exact absurd e1 (by simp)
    · rw [if_neg h1] at heq
      have h1' : limitHit cfg tr = false := by
        revert h1
        cases limitHit cfg tr <;> simp
      by_cases h2 : cur.move_num + 1 = half_squares cfg
      · rw [if_pos h2] at heq
        by_cases h3 : _can_connect km cur.x cur.y
            (mirrorOf cfg m (start_px cfg, start_py cfg)).1
            (mirrorOf cfg m (start_px cfg, start_py cfg)).2 = true
        · rw [if_pos h3] at heq
          injection heq with e1 e2 e3
          exact ⟨e3.symm, cur, rest, rfl, h1', h2, h3, e2.symm⟩
        · rw [if_neg h3] at heq
          exact absurd heq (symAdvance_not_done cfg km m b tr cur rest _ _ _)
      · rw [if_neg h2] at heq
        exact absurd heq (symAdvance_not_done cfg km m b tr cur rest _ _ _)

theorem symLoop_succ (cfg : Config) (km : List Pos) (m : SymmetryMode)
    (fuel : Nat) (b : Board) (tr : Int) (stack : List Situation) :
    symLoop cfg km m (fuel + 1) b tr stack =
      match symStep cfg km m b tr stack with
      | .done r b' tr' => some (r, b', tr')
      | .next b' tr' st' => symLoop cfg km m fuel b' tr' st' := rfl

theorem symLoop_true (cfg : Config) (km : List Pos) (m : SymmetryMode)
    (hpar : parityOK cfg m) :
    ∀ (fuel : Nat) (b : Board) (tr : Int) (stack : List Situation)
      (b' : Board) (tr' : Int),
      SymInv cfg km m b stack →
      symLoop cfg km m fuel b tr stack = some (true, b', tr') →
      ∃ b0 cur rest, SymInv cfg km m b0 (cur :: rest) ∧
        cur.move_num + 1 = half_squares cfg ∧
        _can_connect km cur.x cur.y
          (mirrorOf cfg m (start_px cfg, start_py cfg)).1
          (mirrorOf cfg m (start_px cfg, start_py cfg)).2 = true ∧
        b' = _renumber_symmetric_path cfg m b0 := by
  intro fuel
  induction fuel with
  | zero =>
    intro b tr stack b' tr' _ h
    exact absurd h (by simp [symLoop])
  | succ n ih =>
    intro b tr stack b' tr' hinv h
    rw [symLoop_succ] at h
    cases hstep : symStep cfg km m b tr stack with
    | done r b0 t0 =>
      rw [hstep] at h
      have h2 : (r, b0, t0) = (true, b', tr') := Option.some.inj h
      simp only [Prod.mk.injEq] at h2
      obtain ⟨hr, hb0, ht0⟩ := h2
      subst hr
      subst hb0
      subst ht0
      obtain ⟨ht, cur, rest, hstack, hlim, hcomp, hconn, hb⟩ :=
        symStep_done_true cfg km m b tr stack b0 t0 hstep
      subst hstack
      exact ⟨b, cur, rest, hinv, hcomp, hconn, hb⟩
    | next b2 t2 st2 =>
      rw [hstep] at h
      exact ih b2 t2 st2 b' tr'
        (symStep_next_inv cfg km m hpar b tr stack b2 t2 st2 hinv hstep) h

theorem initSymState_inv (cfg : Config) (km : List Pos) (m : SymmetryMode)
    (hpar : parityOK cfg m)
    (hsx1 : 0 ≤ cfg.start_x) (hsx2 : cfg.start_x < cfg.width)
    (hsy1 : 0 ≤ cfg.start_y) (hsy2 : cfg.start_y < cfg.height) :
    SymInv cfg km m (initSymState cfg km m).1 (initSymState cfg km m).2.2 := by
  have hint : interiorCell cfg (start_px cfg, start_py cfg) := by
    unfold interiorCell start_px start_py
    refine ⟨by omega, by omega, by omega, by omega⟩
  set sb := mirrorOf cfg m (start_px cfg, start_py cfg) with hsbdef
  have hsb_ne : sb ≠ (start_px cfg, start_py cfg) :=
    parityOK_ne_self cfg m (start_px cfg, start_py cfg) hpar
  set b0 : Board := setCell (setCell (initBoard cfg.width cfg.height)
    (start_py cfg) (start_px cfg) 0) sb.2 sb.1 MIRROR_BLOCKED with hb0def
  set f0 : Situation :=
    { x := start_px cfg, y := start_py cfg, move_num := 0,
      moves := (move_generator cfg km b0 0 (start_px cfg) (start_py cfg)).1,
      next_index := 0 } with hf0def
  have hshape : (initSymState cfg km m).1 = b0 ∧
      (initSymState cfg km m).2.2 = [f0] := ⟨rfl, rfl⟩
  rw [hshape.1, hshape.2]
  have hpos0 : posOf f0 = (start_px cfg, start_py cfg) := rfl
  have hnd1 : ([f0] : List Situation).Pairwise (fun f g => posOf f ≠ posOf g) :=
    List.pairwise_singleton _ _
  refine ⟨⟨rfl, rfl, rfl, hint⟩, hnd1, ?_, ?_, ?_⟩
  · intro f hf g hg
    rw [List.mem_singleton] at hf hg
    subst hf
    subst hg
    rw [hpos0]
    exact hsb_ne
  · intro f hf c hc
    rw [List.mem_singleton] at hf
    subst hf
    have hc' : c ∈ (move_generator cfg km b0 0 (start_px cfg) (start_py cfg)).1 := hc
    obtain ⟨d, hd, rfl, hE⟩ :=
      (mem_move_generator cfg km b0 0 (start_px cfg) (start_py cfg) c).mp hc'
    exact ⟨d, hd, rfl⟩
  · intro _
    funext y x
    by_cases hP : f0.x = x ∧ f0.y = y
    · obtain ⟨hx, hy⟩ := hP
      subst hx
      subst hy
      rw [boardOfSymStack_posOf cfg m [f0] hnd1 f0 (List.mem_singleton.mpr rfl)]
      have hside : ¬(f0.y = sb.2 ∧ f0.x = sb.1) := by
        intro hc
        apply hsb_ne
        exact (Prod.ext_iff.mpr ⟨hc.2, hc.1⟩).symm
      have hcond2 : f0.y = start_py cfg ∧ f0.x = start_px cfg := ⟨rfl, rfl⟩
      rw [hb0def, setCell, if_neg hside, setCell, if_pos hcond2]
    · have hnp : ∀ f ∈ ([f0] : List Situation), posOf f ≠ (x, y) := by
        intro f hf
        rw [List.mem_singleton] at hf
        subst hf
        intro hc
        exact hP ((posOf_eq_iff f0 x y).mp hc)
      rw [boardOfSymStack_not_mem cfg m [f0] x y hnp]
      by_cases hM : mirrorOf cfg m (posOf f0) = (x, y)
      · rw [if_pos (by rw [List.any_eq_true]; exact ⟨f0, List.mem_singleton.mpr rfl, by simp [hM]⟩)]
        have hsbxy : sb = (x, y) := by
          rw [hsbdef, ← hpos0]
          exact hM
        have hcond : y = sb.2 ∧ x = sb.1 :=
          ⟨(congrArg Prod.snd hsbxy).symm, (congrArg Prod.fst hsbxy).symm⟩
        rw [hb0def, setCell, if_pos hcond]
      · rw [if_neg (by
          rw [List.any_eq_true]
          rintro ⟨f, hf, hdec⟩
          rw [List.mem_singleton] at hf
          subst hf
          simp only [decide_eq_true_eq] at hdec
          exact hM hdec)]
        have hsb_not : ¬(y = sb.2 ∧ x = sb.1) := by
          intro hc
          apply hM
          rw [hpos0, ← hsbdef]
          exact (Prod.ext_iff.mpr ⟨hc.2, hc.1⟩).symm
        have hst_not : ¬(y = start_py cfg ∧ x = start_px cfg) := by
          intro hc
          apply hP
          exact ⟨hc.2.symm, hc.1.symm⟩
        rw [hb0def, setCell, if_neg hsb_not, setCell, if_neg hst_not]

theorem _solve_symmetric_eq (cfg : Config) (km : List Pos) (m : SymmetryMode)
    (fuel : Nat) :
    _solve_symmetric cfg km m fuel = symLoop cfg km m fuel
      (initSymState cfg km m).1 (initSymState cfg km m).2.1
      (initSymState cfg km m).2.2 := rfl

-- ------------------------------------------------------------
-- Renumbering: extraction of the full symmetric path
-- ------------------------------------------------------------

theorem fill_boardOfSymStack (cfg : Config) (km : List Pos) (m : SymmetryMode)
    (stack : List Situation) (hch : ChainOK cfg km stack)
    (hnd : stack.Pairwise (fun f g => posOf f ≠ posOf g))
    (hlen : (stack.length : Int) = half_squares cfg) :
    fillByNumber (scanCells cfg) (boardOfSymStack cfg m stack)
        (half_squares cfg) (fun p => p) =
      (tourOf stack).map some := by
  apply List.ext_getElem?
  intro n
  by_cases hn : n < stack.length
  · have hnInt : (n : Int) < half_squares cfg := by omega
    have hj : stack.length - 1 - n < stack.length := by omega
    set fn := stack.get ⟨stack.length - 1 - n, hj⟩ with hfn
    have hfn_num : fn.move_num = (n : Int) := by
      rw [hfn, chainOK_get_num cfg km stack hch _ hj]
      have : stack.length - 1 - (stack.length - 1 - n) = n := by omega
      rw [this]
    have hfn_mem : fn ∈ stack := List.get_mem stack _ hj
    have hval : boardOfSymStack cfg m stack fn.y fn.x = (n : Int) := by
      rw [boardOfSymStack_posOf cfg m stack hnd fn hfn_mem, hfn_num]
    have hRHS : ((tourOf stack).map some)[n]? = some (some (posOf fn)) := by
      rw [List.getElem?_map]
      unfold tourOf
      rw [List.getElem?_map]
      have hnrev : n < stack.reverse.length := by
        rw [List.length_reverse]
        exact hn
      rw [List.getElem?_eq_getElem hnrev, List.getElem_reverse hnrev]
      rw [← List.get_eq_getElem stack ⟨stack.length - 1 - n, hj⟩, ← hfn]
      rfl
    rw [hRHS]
    rw [fillByNumber_getElem (scanCells cfg) _ _ _ n hnInt]
    have hfind : (scanCells cfg).reverse.find?
        (fun p => decide (boardOfSymStack cfg m stack p.2 p.1 = (n : Int))) =
          some (posOf fn) := by
      apply find?_eq_some_unique
      · rw [List.mem_reverse, mem_scanCells]
        exact chainOK_interior cfg km stack hch fn hfn_mem
      · simp only [decide_eq_true_eq]
        exact hval
      · intro p hp hpred
        simp only [decide_eq_true_eq] at hpred
        obtain ⟨g, hg, hgpos, hgnum⟩ := boardOfSymStack_pos_value cfg m stack
          p.2 p.1 ((n : Nat) : Int) hpred (Int.natCast_nonneg n)
        have hgfn : g = fn :=
          chainOK_num_inj cfg km stack hch g hg fn hfn_mem
            (by rw [hgnum, hfn_num])
        rw [hgfn] at hgpos
        exact hgpos.symm
    rw [hfind]
  · have h1 : (fillByNumber (scanCells cfg) (boardOfSymStack cfg m stack)
        (half_squares cfg) (fun p => p)).length ≤ n := by
      rw [fillByNumber_length]
      omega
    have h2 : (((tourOf stack).map some)).length ≤ n := by
      rw [List.length_map, tourOf_length]
      omega
    rw [List.getElem?_eq_none h1, List.getElem?_eq_none h2]

theorem writeMirrorNumbers_skip (cfg : Config) (m : SymmetryMode) (half : Int) :
    ∀ (l : List Pos) (i0 : Int) (bd : Board) (y x : Int),
      (∀ p ∈ l, mirrorOf cfg m p ≠ (x, y)) →
      writeMirrorNumbers cfg m half (l.map some) i0 bd y x = bd y x := by
  intro l
  induction l with
  | nil =>
    intro i0 bd y x h
    rfl
  | cons p rest ih =>
    intro i0 bd y x h
    show writeMirrorNumbers cfg m half (rest.map some) (i0 + 1)
      (setCell bd (mirrorOf cfg m p).2 (mirrorOf cfg m p).1 (half + i0)) y x =
        bd y x
    rw [ih (i0 + 1) _ y x (fun q hq => h q (List.mem_cons_of_mem p hq))]
    rw [setCell, if_neg]
    intro hc
    apply h p (List.mem_cons_self p rest)
    exact Prod.ext_iff.mpr ⟨hc.2.symm, hc.1.symm⟩

theorem writeMirrorNumbers_get (cfg : Config) (m : SymmetryMode) (half : Int) :
    ∀ (l : List Pos) (i0 : Int) (bd : Board) (j : Nat) (hj : j < l.length),
      (l.map (mirrorOf cfg m)).Nodup →
      writeMirrorNumbers cfg m half (l.map some) i0 bd
          (mirrorOf cfg m (l.get ⟨j, hj⟩)).2
          (mirrorOf cfg m (l.get ⟨j, hj⟩)).1 =
        half + i0 + (j : Int) := by
  intro l
  induction l with
  | nil =>
    intro i0 bd j hj
    exact absurd hj (by simp)
  | cons p rest ih =>
    intro i0 bd j hj hnd
    rw [List.map_cons, List.nodup_cons] at hnd
    cases j with
    | zero =>
      show writeMirrorNumbers cfg m half (rest.map some) (i0 + 1)
        (setCell bd (mirrorOf cfg m p).2 (mirrorOf cfg m p).1 (half + i0))
        (mirrorOf cfg m p).2 (mirrorOf cfg m p).1 = half + i0 + ((0 : Nat) : Int)
      rw [writeMirrorNumbers_skip cfg m half rest (i0 + 1) _ _ _ ?_]
      · have hcond : (mirrorOf cfg m p).2 = (mirrorOf cfg m p).2 ∧
            (mirrorOf cfg m p).1 = (mirrorOf cfg m p).1 := ⟨rfl, rfl⟩
        rw [setCell, if_pos hcond]
        omega
      · intro q hq hc
        have hc' : mirrorOf cfg m q = mirrorOf cfg m p := hc
        exact hnd.1 (hc' ▸ List.mem_map_of_mem (mirrorOf cfg m) hq)
    | succ k =>
      have hk : k < rest.length := by
        rw [List.length_cons] at hj
        omega
      show writeMirrorNumbers cfg m half (rest.map some) (i0 + 1)
        (setCell bd (mirrorOf cfg m p).2 (mirrorOf cfg m p).1 (half + i0))
        (mirrorOf cfg m (rest.get ⟨k, hk⟩)).2
        (mirrorOf cfg m (rest.get ⟨k, hk⟩)).1 = half + i0 + ((k + 1 : Nat) : Int)
      rw [ih (i0 + 1) _ k hk hnd.2]
      push_cast
      ring

theorem chainOK_num_lt (cfg : Config) (km : List Pos)
    (stack : List Situation) (hch : ChainOK cfg km stack) :
    ∀ f ∈ stack, f.move_num < (stack.length : Int) := by
  intro f hf
  obtain ⟨i, hi, hif⟩ := List.mem_iff_getElem.mp hf
  have hnum := chainOK_get_num cfg km stack hch i hi
  rw [List.get_eq_getElem, hif] at hnum
  rw [hnum]
  omega

theorem renumbered_value (cfg : Config) (km : List Pos) (m : SymmetryMode)
    (stack : List Situation) (hch : ChainOK cfg km stack)
    (hnd : stack.Pairwise (fun f g => posOf f ≠ posOf g))
    (y x v : Int) (h0 : 0 ≤ v)
    (hv : writeMirrorNumbers cfg m (half_squares cfg)
      ((tourOf stack).map some) 0 (boardOfSymStack cfg m stack) y x = v) :
    (∃ f ∈ stack, posOf f = (x, y) ∧ f.move_num = v) ∨
    (∃ j : Nat, ∃ hj : j < (tourOf stack).length,
      mirrorOf cfg m ((tourOf stack).get ⟨j, hj⟩) = (x, y) ∧
      v = half_squares cfg + (j : Int)) := by
  by_cases hmem : ∃ p ∈ tourOf stack, mirrorOf cfg m p = (x, y)
  · obtain ⟨p, hp, hmp⟩ := hmem
    obtain ⟨⟨j, hj⟩, hjp⟩ := List.mem_iff_get.mp hp
    have hmg : mirrorOf cfg m ((tourOf stack).get ⟨j, hj⟩) = (x, y) := by
      rw [hjp]
      exact hmp
    have hnodmir : ((tourOf stack).map (mirrorOf cfg m)).Nodup :=
      List.Nodup.map (mirrorOf_injective cfg m) (tourOf_nodup stack hnd)
    have hget := writeMirrorNumbers_get cfg m (half_squares cfg)
      (tourOf stack) 0 (boardOfSymStack cfg m stack) j hj hnodmir
    rw [congrArg Prod.snd hmg, congrArg Prod.fst hmg] at hget
    have hvj : v = half_squares cfg + 0 + (j : Int) := by
      rw [← hv]
      exact hget
    exact Or.inr ⟨j, hj, hmg, by omega⟩
  · have hskip : ∀ p ∈ tourOf stack, mirrorOf cfg m p ≠ (x, y) :=
      fun p hp hc => hmem ⟨p, hp, hc⟩
    rw [writeMirrorNumbers_skip cfg m (half_squares cfg) (tourOf stack) 0
      (boardOfSymStack cfg m stack) y x hskip] at hv
    exact Or.inl (boardOfSymStack_pos_value cfg m stack y x v hv h0)

theorem renumber_boardOfSymStack (cfg : Config) (km : List Pos)
    (m : SymmetryMode) (stack : List Situation) (hch : ChainOK cfg km stack)
    (hnd : stack.Pairwise (fun f g => posOf f ≠ posOf g))
    (hlen : (stack.length : Int) = half_squares cfg) :
    _renumber_symmetric_path cfg m (boardOfSymStack cfg m stack) =
      writeMirrorNumbers cfg m (half_squares cfg) ((tourOf stack).map some) 0
        (boardOfSymStack cfg m stack) := by
  show writeMirrorNumbers cfg m (half_squares cfg)
      (fillByNumber (scanCells cfg) (boardOfSymStack cfg m stack)
        (half_squares cfg) (fun p => p)) 0 (boardOfSymStack cfg m stack) = _
  rw [fill_boardOfSymStack cfg km m stack hch hnd hlen]

/-- The extracted path of a renumbered half-tour board: the half tour
followed by its mirror image, shifted to user coordinates. -/
theorem get_path_renumbered (cfg : Config) (km : List Pos) (m : SymmetryMode)
    (stack : List Situation) (hch : ChainOK cfg km stack)
    (hnd : stack.Pairwise (fun f g => posOf f ≠ posOf g))
    (hmix : ∀ f ∈ stack, ∀ g ∈ stack, mirrorOf cfg m (posOf g) ≠ posOf f)
    (hlen : (stack.length : Int) = half_squares cfg)
    (htot : cfg.width * cfg.height = 2 * half_squares cfg) :
    get_path cfg (_renumber_symmetric_path cfg m (boardOfSymStack cfg m stack)) =
      ((tourOf stack) ++ (tourOf stack).map (mirrorOf cfg m)).map
        (fun p => some (p.1 - 2, p.2 - 2)) := by
  rw [renumber_boardOfSymStack cfg km m stack hch hnd hlen]
  set t := tourOf stack with htdef
  set B := writeMirrorNumbers cfg m (half_squares cfg) (t.map some) 0
    (boardOfSymStack cfg m stack) with hBdef
  have htlen : t.length = stack.length := tourOf_length stack
  have hnodmir : (t.map (mirrorOf cfg m)).Nodup :=
    List.Nodup.map (mirrorOf_injective cfg m) (tourOf_nodup stack hnd)
  have hnumlt := chainOK_num_lt cfg km stack hch
  have hmem_t : ∀ p ∈ t, ∃ g ∈ stack, posOf g = p := by
    intro p hp
    rw [htdef] at hp
    obtain ⟨g, hg, rfl⟩ := List.mem_map.mp hp
    exact ⟨g, List.mem_reverse.mp hg, rfl⟩
  apply List.ext_getElem?
  intro n
  by_cases hn : n < 2 * stack.length
  · have hnInt : (n : Int) < cfg.width * cfg.height := by omega
    rw [show get_path cfg B = fillByNumber (scanCells cfg) B
      (cfg.width * cfg.height) (fun p => (p.1 - 2, p.2 - 2)) from rfl]
    rw [fillByNumber_getElem (scanCells cfg) B _ _ n hnInt]
    by_cases hcase : n < stack.length
    · have hjn : n < t.length := by omega
      have hj : stack.length - 1 - n < stack.length := by omega
      set fn := stack.get ⟨stack.length - 1 - n, hj⟩ with hfn
      have hfn_mem : fn ∈ stack := List.get_mem stack _ hj
      have hfn_num : fn.move_num = (n : Int) := by
        rw [hfn, chainOK_get_num cfg km stack hch _ hj]
        have : stack.length - 1 - (stack.length - 1 - n) = n := by omega
        rw [this]
      have htget : t.get ⟨n, hjn⟩ = posOf fn := tourOf_get stack n hjn hj
      have hskip : ∀ p ∈ t, mirrorOf cfg m p ≠ (fn.x, fn.y) := by
        intro p hp
        obtain ⟨g, hg, rfl⟩ := hmem_t p hp
        exact hmix fn hfn_mem g hg
      have hval : B fn.y fn.x = (n : Int) := by
        rw [hBdef, writeMirrorNumbers_skip cfg m (half_squares cfg) t 0
          (boardOfSymStack cfg m stack) fn.y fn.x hskip,
          boardOfSymStack_posOf cfg m stack hnd fn hfn_mem, hfn_num]
      have hfind : (scanCells cfg).reverse.find?
          (fun p => decide (B p.2 p.1 = (n : Int))) = some (posOf fn) := by
        apply find?_eq_some_unique
        · rw [List.mem_reverse, mem_scanCells]
          exact chainOK_interior cfg km stack hch fn hfn_mem
        · simp only [decide_eq_true_eq]
          exact hval
        · intro p hp hpred
          simp only [decide_eq_true_eq] at hpred
          rcases renumbered_value cfg km m stack hch hnd p.2 p.1 ((n : Nat) : Int)
            (Int.natCast_nonneg n) hpred with
            ⟨g, hg, hgpos, hgnum⟩ | ⟨j, hjt, hjm, hjv⟩
          · have hgfn : g = fn :=
              chainOK_num_inj cfg km stack hch g hg fn hfn_mem
                (by rw [hgnum, hfn_num])
            rw [hgfn] at hgpos
            exact hgpos.symm
          · exfalso
            have hhalf : (stack.length : Int) = half_squares cfg := hlen
            omega
      rw [hfind]
      have hRHS : ((t ++ t.map (mirrorOf cfg m)).map
          (fun p => some (p.1 - 2, p.2 - 2)))[n]? =
            some (some ((posOf fn).1 - 2, (posOf fn).2 - 2)) := by
        rw [List.getElem?_map, List.getElem?_append_left (by omega : n < t.length)]
        rw [List.getElem?_eq_getElem hjn]
        rw [← List.get_eq_getElem t ⟨n, hjn⟩, htget]
        rfl
      rw [hRHS]
    · have hjt : n - stack.length < t.length := by omega
      set j := n - stack.length with hjdef
      set mc := mirrorOf cfg m (t.get ⟨j, hjt⟩) with hmcdef
      have hget := writeMirrorNumbers_get cfg m (half_squares cfg) t 0
        (boardOfSymStack cfg m stack) j hjt hnodmir
      have hjcast : ((j : Nat) : Int) = (n : Int) - (stack.length : Int) := by
        omega
      have hval : B mc.2 mc.1 = (n : Int) := by
        rw [hBdef, hmcdef]
        rw [hget]
        omega
      have hmc_int : interiorCell cfg mc := by
        rw [hmcdef]
        exact mirrorOf_interiorCell cfg m _
          (tourOf_interior cfg km stack hch _ (List.get_mem t _ hjt))
      have hfind : (scanCells cfg).reverse.find?
          (fun p => decide (B p.2 p.1 = (n : Int))) = some mc := by
        apply find?_eq_some_unique
        · rw [List.mem_reverse, mem_scanCells]
          exact hmc_int
        · simp only [decide_eq_true_eq]
          exact hval
        · intro p hp hpred
          simp only [decide_eq_true_eq] at hpred
          rcases renumbered_value cfg km m stack hch hnd p.2 p.1 ((n : Nat) : Int)
            (Int.natCast_nonneg n) hpred with
            ⟨g, hg, hgpos, hgnum⟩ | ⟨j2, hjt2, hjm2, hjv2⟩
          · exfalso
            have := hnumlt g hg
            omega
          · have hj2 : j2 = j := by
              have : ((j2 : Nat) : Int) = ((j : Nat) : Int) := by omega
              exact_mod_cast this
            subst hj2
            rw [← hmcdef] at hjm2
            exact hjm2.symm
      rw [hfind]
      have hRHS : ((t ++ t.map (mirrorOf cfg m)).map
          (fun p => some (p.1 - 2, p.2 - 2)))[n]? =
            some (some (mc.1 - 2, mc.2 - 2)) := by
        rw [List.getElem?_map,
          List.getElem?_append_right (by omega : t.length ≤ n)]
        rw [List.getElem?_map]
        have hidx : n - t.length = j := by omega
        rw [hidx, List.getElem?_eq_getElem hjt]
        rfl
      rw [hRHS]
  · have h1 : (get_path cfg B).length ≤ n := by
      rw [show get_path cfg B = fillByNumber (scanCells cfg) B
        (cfg.width * cfg.height) (fun p => (p.1 - 2, p.2 - 2)) from rfl]
      rw [fillByNumber_length]
      omega
    have h2 : (((t ++ t.map (mirrorOf cfg m)).map
        (fun p => some (p.1 - 2, p.2 - 2)))).length ≤ n := by
      rw [List.length_map, List.length_append, List.length_map, htlen]
      omega
    rw [List.getElem?_eq_none h1, List.getElem?_eq_none h2]

/-- Bundle of conclusions available after any successful run of
`_solve_symmetric`. -/
theorem sym_true_shape (cfg : Config) (km : List Pos) (m : SymmetryMode)
    (fuel : Nat) (hpar : parityOK cfg m)
    (hsx1 : 0 ≤ cfg.start_x) (hsx2 : cfg.start_x < cfg.width)
    (hsy1 : 0 ≤ cfg.start_y) (hsy2 : cfg.start_y < cfg.height)
    (hfound : symFound cfg km m fuel = some true) :
    ∃ (cur : Situation) (rest : List Situation),
      SymInv cfg km m (boardOfSymStack cfg m (cur :: rest)) (cur :: rest) ∧
      cur.move_num + 1 = half_squares cfg ∧
      _can_connect km cur.x cur.y
        (mirrorOf cfg m (start_px cfg, start_py cfg)).1
        (mirrorOf cfg m (start_px cfg, start_py cfg)).2 = true ∧
      symPath cfg km m fuel = some (get_path cfg
        (_renumber_symmetric_path cfg m (boardOfSymStack cfg m (cur :: rest)))) ∧
      ((cur :: rest).length : Int) = half_squares cfg := by
  unfold symFound at hfound
  cases hsol : _solve_symmetric cfg km m fuel with
  | none =>
    rw [hsol] at hfound
    exact absurd hfound (by simp)
  | some r =>
    rw [hsol] at hfound
    obtain ⟨found, b', tr'⟩ := r
    have hf : found = true := Option.some.inj hfound
    subst hf
    have hloop : symLoop cfg km m fuel (initSymState cfg km m).1
        (initSymState cfg km m).2.1 (initSymState cfg km m).2.2 =
          some (true, b', tr') := hsol
    obtain ⟨b0, cur, rest, hinv, hcomp, hconn, hb'⟩ :=
      symLoop_true cfg km m hpar fuel _ _ _ b' tr'
        (initSymState_inv cfg km m hpar hsx1 hsx2 hsy1 hsy2) hloop
    have hb0 : b0 = boardOfSymStack cfg m (cur :: rest) :=
      hinv.boardEq (List.cons_ne_nil cur rest)
    have hlenf : ((cur :: rest).length : Int) = half_squares cfg := by
      have hhead := chainOK_head_num cfg km rest cur hinv.chain
      omega
    refine ⟨cur, rest, hb0 ▸ hinv, hcomp, hconn, ?_, hlenf⟩
    unfold symPath
    rw [hsol, Option.map_some']
    rw [show get_path cfg (true, b', tr').2.1 = get_path cfg b' from rfl, hb',
      hb0]

-- ------------------------------------------------------------
-- C2: a successful symmetric search yields a mirror-symmetric cycle
-- ------------------------------------------------------------

/-- C2: every successful symmetric search produces a path of exactly
`width·height` squares whose second half is the mirror image of the first:
`mirror(q[i]) = q[(i + half) mod total]` for every index `i` (stated here on
physical coordinates; `symPath` shifts every entry by 2 per axis), and the
path is a cycle — its last square is knight-adjacent to its first. -/
theorem C2_symmetric_mirror_cycle (cfg : Config) (km : List Pos)
    (m : SymmetryMode) (fuel : Nat)
    (hkm : ∀ d : Pos, d ∈ km ↔ d ∈ BASE_KNIGHT_MOVES)
    (hpar : parityOK cfg m)
    (hsx1 : 0 ≤ cfg.start_x) (hsx2 : cfg.start_x < cfg.width)
    (hsy1 : 0 ≤ cfg.start_y) (hsy2 : cfg.start_y < cfg.height)
    (hfound : symFound cfg km m fuel = some true) :
    ∃ q : List Pos,
      symPath cfg km m fuel =
        some (q.map (fun p => some (p.1 - 2, p.2 - 2))) ∧
      (q.length : Int) = cfg.width * cfg.height ∧
      (∀ (i : Nat) (hi : i < q.length)
        (hi' : (i + (half_squares cfg).toNat) % q.length < q.length),
        mirrorOf cfg m (q.get ⟨i, hi⟩) =
          q.get ⟨(i + (half_squares cfg).toNat) % q.length, hi'⟩) ∧
      (∃ p₀ p₁ : Pos, q.head? = some p₀ ∧ q.getLast? = some p₁ ∧
        adjacent km p₁ p₀) := by
  obtain ⟨cur, rest, hinv, hcomp, hconn, hpath, hlenf⟩ :=
    sym_true_shape cfg km m fuel hpar hsx1 hsx2 hsy1 hsy2 hfound
  set stackf := cur :: rest with hstackf
  have h2dvd : (2 : Int) ∣ cfg.width * cfg.height := by
    cases m with
    | h => exact Dvd.dvd.mul_right hpar cfg.height
    | v => exact Dvd.dvd.mul_left hpar cfg.width
    | p => exact Dvd.dvd.mul_right hpar.1 cfg.height
  have htot : cfg.width * cfg.height = 2 * half_squares cfg := by
    unfold half_squares
    omega
  set t := tourOf stackf with htdef
  have htlen : t.length = stackf.length := tourOf_length stackf
  have hslen : stackf.length = rest.length + 1 := by
    rw [hstackf, List.length_cons]
  have hn0 : 0 < t.length := by omega
  have hhalf : (half_squares cfg).toNat = t.length := by omega
  set q := t ++ t.map (mirrorOf cfg m) with hqdef
  have hqlen : q.length = t.length + t.length := by
    rw [hqdef, List.length_append, List.length_map]
  refine ⟨q, ?_, ?_, ?_, ?_⟩
  · rw [hpath, get_path_renumbered cfg km m stackf hinv.chain hinv.nodup
      hinv.nomix hlenf htot]
  · rw [hqlen]
    push_cast
    omega
  · intro i hi hi'
    by_cases hfst : i < t.length
    · have hmod : (i + (half_squares cfg).toNat) % q.length = i + t.length := by
        rw [hhalf, hqlen]
        apply Nat.mod_eq_of_lt
        omega
      have h1 : q[i]? = some (q.get ⟨i, hi⟩) := List.getElem?_eq_getElem hi
      have h2 : q[i]? = some (t.get ⟨i, hfst⟩) := by
        rw [hqdef, List.getElem?_append_left hfst,
          List.getElem?_eq_getElem hfst]
        rfl
      have hqi : q.get ⟨i, hi⟩ = t.get ⟨i, hfst⟩ :=
        Option.some.inj (h1.symm.trans h2)
      have h3 : q[i + t.length]? =
          some (q.get ⟨(i + (half_squares cfg).toNat) % q.length, hi'⟩) := by
        rw [← hmod]
        exact List.getElem?_eq_getElem hi'
      have h4 : q[i + t.length]? =
          some (mirrorOf cfg m (t.get ⟨i, hfst⟩)) := by
        rw [hqdef, List.getElem?_append_right (by omega : t.length ≤ i + t.length),
          List.getElem?_map]
        have hsub : i + t.length - t.length = i := by omega
        rw [hsub, List.getElem?_eq_getElem hfst]
        rfl
      have hqk := Option.some.inj (h3.symm.trans h4)
      rw [hqi, hqk]
    · have hilt : i < q.length := hi
      rw [hqlen] at hilt
      have hj : i - t.length < t.length := by omega
      have hmod : (i + (half_squares cfg).toNat) % q.length = i - t.length := by
        rw [hhalf, hqlen,
          show i + t.length = (i - t.length) + (t.length + t.length) from by omega,
          Nat.add_mod_right]
        exact Nat.mod_eq_of_lt (by omega)
      have h1 : q[i]? = some (q.get ⟨i, hi⟩) := List.getElem?_eq_getElem hi
      have h2 : q[i]? = some (mirrorOf cfg m (t.get ⟨i - t.length, hj⟩)) := by
        rw [hqdef, List.getElem?_append_right (by omega : t.length ≤ i),
          List.getElem?_map, List.getElem?_eq_getElem hj]
        rfl
      have hqi : q.get ⟨i, hi⟩ = mirrorOf cfg m (t.get ⟨i - t.length, hj⟩) :=
        Option.some.inj (h1.symm.trans h2)
      have h3 : q[i - t.length]? =
          some (q.get ⟨(i + (half_squares cfg).toNat) % q.length, hi'⟩) := by
        rw [← hmod]
        exact List.getElem?_eq_getElem hi'
      have h4 : q[i - t.length]? = some (t.get ⟨i - t.length, hj⟩) := by
        rw [hqdef, List.getElem?_append_left hj, List.getElem?_eq_getElem hj]
        rfl
      have hqk := Option.some.inj (h3.symm.trans h4)
      rw [hqi, hqk, mirrorOf_invol]
  · have hne : stackf ≠ [] := List.cons_ne_nil cur rest
    have hstart := chainOK_getLast cfg km rest cur hinv.chain
    have hth : t.head? = some (start_px cfg, start_py cfg) := by
      rw [htdef]
      unfold tourOf
      rw [List.head?_map, List.head?_reverse,
        List.getLast?_eq_getLast stackf hne]
      have hstart' : posOf (stackf.getLast hne) =
          (start_px cfg, start_py cfg) := hstart
      rw [Option.map_some', hstart']
    have htl : (t.map (mirrorOf cfg m)).getLast? =
        some (mirrorOf cfg m (posOf cur)) := by
      rw [List.getLast?_map, htdef]
      unfold tourOf
      rw [List.getLast?_map, List.getLast?_reverse]
      rw [show stackf.head? = some cur from rfl]
      rfl
    refine ⟨(start_px cfg, start_py cfg), mirrorOf cfg m (posOf cur), ?_, ?_, ?_⟩
    · rw [hqdef, List.head?_append, hth]
      rfl
    · rw [hqdef, List.getLast?_append, htl]
      rfl
    · have hadj : adjacent km (posOf cur)
          (mirrorOf cfg m (start_px cfg, start_py cfg)) :=
        (can_connect_iff km cur.x cur.y _ _).mp hconn
      have hadjB := (adjacent_congr_km km hkm _ _).mp hadj
      have hadjB2 := adjacent_mirrorOf cfg m _ _ hadjB
      rw [mirrorOf_invol] at hadjB2
      exact (adjacent_congr_km km hkm _ _).mpr hadjB2

theorem C2_symmetric_mirror_cycle_witness :
    ∃ q : List Pos,
      symPath cfgC2 BASE_KNIGHT_MOVES .v 20 =
        some (q.map (fun p => some (p.1 - 2, p.2 - 2))) ∧
      (q.length : Int) = cfgC2.width * cfgC2.height ∧
      (∀ (i : Nat) (hi : i < q.length)
        (hi' : (i + (half_squares cfgC2).toNat) % q.length < q.length),
        mirrorOf cfgC2 .v (q.get ⟨i, hi⟩) =
          q.get ⟨(i + (half_squares cfgC2).toNat) % q.length, hi'⟩) ∧
      (∃ p₀ p₁ : Pos, q.head? = some p₀ ∧ q.getLast? = some p₁ ∧
        adjacent BASE_KNIGHT_MOVES p₁ p₀) :=
  C2_symmetric_mirror_cycle cfgC2 BASE_KNIGHT_MOVES .v 20 (fun d => Iff.rfl)
    (by decide) (by decide) (by decide) (by decide) (by decide) (by rfl)

-- ------------------------------------------------------------
-- C4: the trial limit — ignored by `solve`, enforced by `_solve_symmetric`
-- ------------------------------------------------------------

theorem solveLoop_ignores_limit (cfg : Config) (l : Option Int)
    (km : List Pos) :
    ∀ (fuel : Nat) (b : Board) (tr : Int) (st : List Situation),
      solveLoop { cfg with limit := l } km fuel b tr st =
        solveLoop cfg km fuel b tr st := by
  intro fuel
  induction fuel with
  | zero =>
    intro b tr st
    rfl
  | succ n ih =>
    intro b tr st
    rw [solveLoop_succ, solveLoop_succ]
    have hstep : plainStep { cfg with limit := l } km b tr st =
        plainStep cfg km b tr st := rfl
    rw [hstep]
    cases plainStep cfg km b tr st with
    | done r b' tr' => rfl
    | next b' tr' st' => exact ih b' tr' st'

theorem symAdvance_trials_le (cfg : Config) (km : List Pos) (m : SymmetryMode)
    (b : Board) (tr : Int) (cur : Situation) (rest : List Situation)
    (b' : Board) (tr' : Int) (st' : List Situation)
    (heq : symAdvance cfg km m b tr cur rest = .next b' tr' st') :
    tr ≤ tr' ∧
      tr' ≤ tr + ((km.length : Int) + (km.length : Int) * km.length) := by
  have hB : (0 : Int) ≤ (km.length : Int) + (km.length : Int) * km.length := by
    have h0 : (0 : Int) ≤ km.length := Int.natCast_nonneg _
    have h1 : (0 : Int) ≤ (km.length : Int) * km.length := mul_nonneg h0 h0
    omega
  unfold symAdvance at heq
  by_cases hidx : cur.next_index < cur.moves.length
  · rw [dif_pos hidx] at heq
    dsimp only at heq
    set c := cur.moves.get ⟨cur.next_index, hidx⟩ with hcdef
    by_cases hskip : b c.2 c.1 ≠ EMPTY
    · rw [if_pos hskip] at heq
      injection heq with e1 e2 e3
      omega
    · rw [if_neg hskip] at heq
      injection heq with e1 e2 e3
      rw [← e2]
      exact move_generator_trials_le cfg km _ tr c.1 c.2
  · rw [dif_neg hidx] at heq
    by_cases hmn : cur.move_num > 0
    · rw [if_pos hmn] at heq
      injection heq with e1 e2 e3
      omega
    · rw [if_neg hmn] at heq
      injection heq with e1 e2 e3
      omega

theorem symStep_next_trials (cfg : Config) (km : List Pos) (m : SymmetryMode)
    (N : Int) (hN : cfg.limit = some N) (hNpos : 0 < N)
    (b : Board) (tr : Int) (stack : List Situation)
    (b' : Board) (tr' : Int) (st' : List Situation)
    (heq : symStep cfg km m b tr stack = .next b' tr' st') :
    tr < N ∧
      tr' ≤ tr + ((km.length : Int) + (km.length : Int) * km.length) := by
  cases stack with
  | nil =>
    rw [symStep_nil] at heq
    exact absurd heq (fun h => StepRes.noConfusion h)
  | cons cur rest =>
    rw [symStep_cons] at heq
    by_cases h1 : limitHit cfg tr = true
    · rw [if_pos h1] at heq
      exact absurd heq (fun h => StepRes.noConfusion h)
    · rw [if_neg h1] at heq
      have htr : tr < N := by
        unfold limitHit at h1
        rw [hN] at h1
        by_contra hge
        apply h1
        show (decide (N ≠ 0) && decide (N ≤ tr)) = true
        rw [Bool.and_eq_true, decide_eq_true_eq, decide_eq_true_eq]
        exact ⟨by omega, by omega⟩
      refine ⟨htr, ?_⟩
      by_cases h2 : cur.move_num + 1 = half_squares cfg
      · rw [if_pos h2] at heq
        by_cases h3 : _can_connect km cur.x cur.y
            (mirrorOf cfg m (start_px cfg, start_py cfg)).1
            (mirrorOf cfg m (start_px cfg, start_py cfg)).2 = true
        · rw [if_pos h3] at heq
          exact absurd heq (fun h => StepRes.noConfusion h)
        · rw [if_neg h3] at heq
          exact (symAdvance_trials_le cfg km m b tr cur rest b' tr' st' heq).2
      · rw [if_neg h2] at heq
        exact (symAdvance_trials_le cfg km m b tr cur rest b' tr' st' heq).2

theorem symStep_done_trials (cfg : Config) (km : List Pos) (m : SymmetryMode)
    (b : Board) (tr : Int) (stack : List Situation) (r : Bool) (b' : Board)
    (tr' : Int) (heq : symStep cfg km m b tr stack = .done r b' tr') :
    tr' = tr := by
  cases stack with
  | nil =>
    rw [symStep_nil] at heq
    injection heq with e1 e2 e3
    exact e3.symm
  | cons cur rest =>
    rw [symStep_cons] at heq
    by_cases h1 : limitHit cfg tr = true
    · rw [if_pos h1] at heq
      injection heq with e1 e2 e3
      exact e3.symm
    · rw [if_neg h1] at heq
      by_cases h2 : cur.move_num + 1 = half_squares cfg
      · rw [if_pos h2] at heq
        by_cases h3 : _can_connect km cur.x cur.y
            (mirrorOf cfg m (start_px cfg, start_py cfg)).1
            (mirrorOf cfg m (start_px cfg, start_py cfg)).2 = true
        · rw [if_pos h3] at heq
          injection heq with e1 e2 e3
          exact e3.symm
        · rw [if_neg h3] at heq
          exact absurd heq (symAdvance_not_done cfg km m b tr cur rest _ _ _)
      · rw [if_neg h2] at heq
        exact absurd heq (symAdvance_not_done cfg km m b tr cur rest _ _ _)

theorem symLoop_trials_bound (cfg : Config) (km : List Pos) (m : SymmetryMode)
    (N : Int) (hN : cfg.limit = some N) (hNpos : 0 < N) :
    ∀ (fuel : Nat) (b : Board) (tr : Int) (stack : List Situation)
      (r : Bool) (b' : Board) (tr' : Int),
      tr < N + ((km.length : Int) + (km.length : Int) * km.length) →
      symLoop cfg km m fuel b tr stack = some (r, b', tr') →
      tr' < N + ((km.length : Int) + (km.length : Int) * km.length) := by
  intro fuel
  induction fuel with
  | zero =>
    intro b tr stack r b' tr' _ h
    exact absurd h (by simp [symLoop])
  | succ n ih =>
    intro b tr stack r b' tr' hb h
    rw [symLoop_succ] at h
    cases hstep : symStep cfg km m b tr stack with
    | done r0 b0 t0 =>
      rw [hstep] at h
      have h2 : (r0, b0, t0) = (r, b', tr') := Option.some.inj h
      simp only [Prod.mk.injEq] at h2
      have ht0 : t0 = tr :=
        symStep_done_trials cfg km m b tr stack r0 b0 t0 hstep
      omega
    | next b2 t2 st2 =>
      rw [hstep] at h
      have hst := symStep_next_trials cfg km m N hN hNpos b tr stack
        b2 t2 st2 hstep
      exact ih b2 t2 st2 r b' tr' (by omega) h

/-- C4 (amended): the trial limit is enforced only by the symmetric search.
`solve` never consults `limit` — its result is unchanged under any limit —
while `_solve_symmetric` checks the limit at the top of every iteration:
once the counter has reached a nonzero limit it stops at once, reporting
not-found with the counter untouched, so a run that returns at all returns
a final count below `limit` plus one strategy call's worst-case batch
`|km| + |km|²`. -/
theorem C4_limit_enforcement (cfg : Config) (km : List Pos) (m : SymmetryMode)
    (N : Int) (hN : cfg.limit = some N) (hNpos : 0 < N) :
    (∀ (l : Option Int) (fuel : Nat),
      solve { cfg with limit := l } km fuel = solve cfg km fuel) ∧
    (∀ (b : Board) (tr : Int) (cur : Situation) (rest : List Situation),
      N ≤ tr → symStep cfg km m b tr (cur :: rest) = .done false b tr) ∧
    (∀ (fuel : Nat) (r : Bool × Board × Int),
      _solve_symmetric cfg km m fuel = some r →
      r.2.2 < N + ((km.length : Int) + (km.length : Int) * km.length)) := by
  refine ⟨?_, ?_, ?_⟩
  · intro l fuel
    rw [solve_eq, solve_eq]
    have hinit : initPlainState { cfg with limit := l } km =
        initPlainState cfg km := rfl
    rw [hinit]
    exact solveLoop_ignores_limit cfg l km fuel _ _ _
  · intro b tr cur rest htr
    rw [symStep_cons]
    have hlim : limitHit cfg tr = true := by
      unfold limitHit
      rw [hN]
      show (decide (N ≠ 0) && decide (N ≤ tr)) = true
      rw [Bool.and_eq_true, decide_eq_true_eq, decide_eq_true_eq]
      exact ⟨by omega, htr⟩
    rw [if_pos hlim]
  · intro fuel r hr
    obtain ⟨r1, b2, t2⟩ := r
    have hinit : (initSymState cfg km m).2.1 ≤
        0 + ((km.length : Int) + (km.length : Int) * km.length) :=
      (move_generator_trials_le cfg km _ 0 _ _).2
    have hr' : symLoop cfg km m fuel (initSymState cfg km m).1
        (initSymState cfg km m).2.1 (initSymState cfg km m).2.2 =
          some (r1, b2, t2) := hr
    exact symLoop_trials_bound cfg km m N hN hNpos fuel _ _ _ r1 b2 t2
      (by omega) hr'

/-- C4 counterexample: with a configured limit of 1, the plain search runs
the entire (futile) 3×3 search to exhaustion and ends with a trial count of
120 — far beyond the limit plus one batch (`1 + 8 + 64 = 73`) that the claim
allows.  The limit only binds `_solve_symmetric`. -/
theorem C4_limit_counterexample :
    cfgC4.limit = some 1 ∧
    solveFound cfgC4 BASE_KNIGHT_MOVES 32 = some false ∧
    solveTrials cfgC4 BASE_KNIGHT_MOVES 32 = some 120 ∧
    ¬((120 : Int) ≤ 1 + ((BASE_KNIGHT_MOVES.length : Int) +
      (BASE_KNIGHT_MOVES.length : Int) * BASE_KNIGHT_MOVES.length)) :=
  ⟨rfl, by rfl, by rfl, by decide⟩

theorem C4_limit_enforcement_witness :
    cfgC4s.limit = some 1 ∧ (0 : Int) < 1 ∧
    ((∀ (l : Option Int) (fuel : Nat),
      solve { cfgC4s with limit := l } BASE_KNIGHT_MOVES fuel =
        solve cfgC4s BASE_KNIGHT_MOVES fuel) ∧
    (∀ (b : Board) (tr : Int) (cur : Situation) (rest : List Situation),
      1 ≤ tr → symStep cfgC4s BASE_KNIGHT_MOVES .v b tr (cur :: rest) =
        .done false b tr) ∧
    (∀ (fuel : Nat) (r : Bool × Board × Int),
      _solve_symmetric cfgC4s BASE_KNIGHT_MOVES .v fuel = some r →
      r.2.2 < 1 + ((BASE_KNIGHT_MOVES.length : Int) +
        (BASE_KNIGHT_MOVES.length : Int) * BASE_KNIGHT_MOVES.length))) :=
  ⟨rfl, by decide,
    C4_limit_enforcement cfgC4s BASE_KNIGHT_MOVES .v 1 rfl (by decide)⟩

-- ------------------------------------------------------------
-- C7: what backtracking restores
-- ------------------------------------------------------------

theorem iterPlain_succ (cfg : Config) (km : List Pos) (n : Nat)
    (s : Board × Int × List Situation) :
    iterPlain cfg km (n + 1) s =
      match plainStep cfg km s.1 s.2.1 s.2.2 with
      | .done _ _ _ => s
      | .next b' tr' st' => iterPlain cfg km n (b', tr', st') := rfl

theorem iterSym_succ (cfg : Config) (km : List Pos) (m : SymmetryMode)
    (n : Nat) (s : Board × Int × List Situation) :
    iterSym cfg km m (n + 1) s =
      match symStep cfg km m s.1 s.2.1 s.2.2 with
      | .done _ _ _ => s
      | .next b' tr' st' => iterSym cfg km m n (b', tr', st') := rfl

theorem iterPlain_inv (cfg : Config) (km : List Pos) :
    ∀ (n : Nat) (s : Board × Int × List Situation),
      PlainInv cfg km s.1 s.2.2 →
      PlainInv cfg km (iterPlain cfg km n s).1 (iterPlain cfg km n s).2.2 := by
  intro n
  induction n with
  | zero =>
    intro s h
    exact h
  | succ k ih =>
    intro s h
    rw [iterPlain_succ]
    cases hstep : plainStep cfg km s.1 s.2.1 s.2.2 with
    | done r b' tr' => exact h
    | next b' tr' st' =>
      exact ih (b', tr', st')
        (plainStep_next_inv cfg km s.1 s.2.1 s.2.2 b' tr' st' h hstep)

theorem iterSym_inv (cfg : Config) (km : List Pos) (m : SymmetryMode)
    (hpar : parityOK cfg m) :
    ∀ (n : Nat) (s : Board × Int × List Situation),
      SymInv cfg km m s.1 s.2.2 →
      SymInv cfg km m (iterSym cfg km m n s).1 (iterSym cfg km m n s).2.2 := by
  intro n
  induction n with
  | zero =>
    intro s h
    exact h
  | succ k ih =>
    intro s h
    rw [iterSym_succ]
    cases hstep : symStep cfg km m s.1 s.2.1 s.2.2 with
    | done r b' tr' => exact h
    | next b' tr' st' =>
      exact ih (b', tr', st')
        (symStep_next_inv cfg km m hpar s.1 s.2.1 s.2.2 b' tr' st' h hstep)

/-- C7 (amended): backtracking leaks nothing, in the precise sense that at
every state reachable from the initial one the board is a function of the
stack alone — visited marks (and, symmetrically, mirror blocks) are exactly
the stack frames' squares (and their mirrors).  In particular two reachable
states whose stacks carry the same frames have identical boards.  (The
claim's by-depth version is false: the same numeric depth can be reached
with different frames; see the counterexample.) -/
theorem C7_no_residue (cfg : Config) (km : List Pos) (m : SymmetryMode)
    (hsx1 : 0 ≤ cfg.start_x) (hsx2 : cfg.start_x < cfg.width)
    (hsy1 : 0 ≤ cfg.start_y) (hsy2 : cfg.start_y < cfg.height)
    (hpar : parityOK cfg m) :
    (∀ n : Nat,
      (iterPlain cfg km n (initPlainState cfg km)).1 =
        boardOfStack cfg (iterPlain cfg km n (initPlainState cfg km)).2.2) ∧
    (∀ n₁ n₂ : Nat,
      (iterPlain cfg km n₁ (initPlainState cfg km)).2.2.map frameCore =
        (iterPlain cfg km n₂ (initPlainState cfg km)).2.2.map frameCore →
      (iterPlain cfg km n₁ (initPlainState cfg km)).1 =
        (iterPlain cfg km n₂ (initPlainState cfg km)).1) ∧
    (∀ n : Nat,
      (iterSym cfg km m n (initSymState cfg km m)).2.2 ≠ [] →
      (iterSym cfg km m n (initSymState cfg km m)).1 =
        boardOfSymStack cfg m
          (iterSym cfg km m n (initSymState cfg km m)).2.2) ∧
    (∀ n₁ n₂ : Nat,
      (iterSym cfg km m n₁ (initSymState cfg km m)).2.2 ≠ [] →
      (iterSym cfg km m n₂ (initSymState cfg km m)).2.2 ≠ [] →
      (iterSym cfg km m n₁ (initSymState cfg km m)).2.2.map frameCore =
        (iterSym cfg km m n₂ (initSymState cfg km m)).2.2.map frameCore →
      (iterSym cfg km m n₁ (initSymState cfg km m)).1 =
        (iterSym cfg km m n₂ (initSymState cfg km m)).1) := by
  have hinvP : ∀ n : Nat,
      PlainInv cfg km (iterPlain cfg km n (initPlainState cfg km)).1
        (iterPlain cfg km n (initPlainState cfg km)).2.2 := by
    intro n
    apply iterPlain_inv cfg km n
    have := initPlainState_inv cfg km hsx1 hsx2 hsy1 hsy2
    exact this
  have hinvS : ∀ n : Nat,
      SymInv cfg km m (iterSym cfg km m n (initSymState cfg km m)).1
        (iterSym cfg km m n (initSymState cfg km m)).2.2 := by
    intro n
    apply iterSym_inv cfg km m hpar n
    have := initSymState_inv cfg km m hpar hsx1 hsx2 hsy1 hsy2
    exact this
  refine ⟨?_, ?_, ?_, ?_⟩
  · intro n
    exact (hinvP n).boardEq
  · intro n₁ n₂ hcore
    rw [(hinvP n₁).boardEq, (hinvP n₂).boardEq]
    exact boardOfStack_congr cfg _ _ hcore
  · intro n hne
    exact (hinvS n).boardEq hne
  · intro n₁ n₂ hne₁ hne₂ hcore
    rw [(hinvS n₁).boardEq hne₁, (hinvS n₂).boardEq hne₂]
    exact boardOfSymStack_congr cfg m _ _ hcore

/-- C7 counterexample: on the 3×3 board, stack depth 2 is first reached
after 1 iteration with the square at physical (4,3) marked; after 15
iterations the loop is back at depth 2, but now (4,3) is `EMPTY` (a
different second square is marked) — so the set of non-empty interior
cells at a revisited depth is not the set seen when that depth was first
reached. -/
theorem C7_residue_counterexample :
    (iterPlain cfgC7 BASE_KNIGHT_MOVES 1
      (initPlainState cfgC7 BASE_KNIGHT_MOVES)).2.2.length = 2 ∧
    (∀ k : Nat, k < 1 →
      (iterPlain cfgC7 BASE_KNIGHT_MOVES k
        (initPlainState cfgC7 BASE_KNIGHT_MOVES)).2.2.length ≠ 2) ∧
    (iterPlain cfgC7 BASE_KNIGHT_MOVES 15
      (initPlainState cfgC7 BASE_KNIGHT_MOVES)).2.2.length = 2 ∧
    interiorCell cfgC7 (4, 3) ∧
    (iterPlain cfgC7 BASE_KNIGHT_MOVES 1
      (initPlainState cfgC7 BASE_KNIGHT_MOVES)).1 3 4 ≠ EMPTY ∧
    (iterPlain cfgC7 BASE_KNIGHT_MOVES 15
      (initPlainState cfgC7 BASE_KNIGHT_MOVES)).1 3 4 = EMPTY := by
  refine ⟨by rfl, by decide, by rfl, by decide, by decide, by rfl⟩

theorem C7_no_residue_witness :
    (∀ n : Nat,
      (iterPlain cfgC7w BASE_KNIGHT_MOVES n
        (initPlainState cfgC7w BASE_KNIGHT_MOVES)).1 =
        boardOfStack cfgC7w (iterPlain cfgC7w BASE_KNIGHT_MOVES n
          (initPlainState cfgC7w BASE_KNIGHT_MOVES)).2.2) ∧
    (∀ n₁ n₂ : Nat,
      (iterPlain cfgC7w BASE_KNIGHT_MOVES n₁
        (initPlainState cfgC7w BASE_KNIGHT_MOVES)).2.2.map frameCore =
        (iterPlain cfgC7w BASE_KNIGHT_MOVES n₂
          (initPlainState cfgC7w BASE_KNIGHT_MOVES)).2.2.map frameCore →
      (iterPlain cfgC7w BASE_KNIGHT_MOVES n₁
        (initPlainState cfgC7w BASE_KNIGHT_MOVES)).1 =
        (iterPlain cfgC7w BASE_KNIGHT_MOVES n₂
          (initPlainState cfgC7w BASE_KNIGHT_MOVES)).1) ∧
    (∀ n : Nat,
      (iterSym cfgC7w BASE_KNIGHT_MOVES .v n
        (initSymState cfgC7w BASE_KNIGHT_MOVES .v)).2.2 ≠ [] →
      (iterSym cfgC7w BASE_KNIGHT_MOVES .v n
        (initSymState cfgC7w BASE_KNIGHT_MOVES .v)).1 =
        boardOfSymStack cfgC7w .v
          (iterSym cfgC7w BASE_KNIGHT_MOVES .v n
            (initSymState cfgC7w BASE_KNIGHT_MOVES .v)).2.2) ∧
    (∀ n₁ n₂ : Nat,
      (iterSym cfgC7w BASE_KNIGHT_MOVES .v n₁
        (initSymState cfgC7w BASE_KNIGHT_MOVES .v)).2.2 ≠ [] →
      (iterSym cfgC7w BASE_KNIGHT_MOVES .v n₂
        (initSymState cfgC7w BASE_KNIGHT_MOVES .v)).2.2 ≠ [] →
      (iterSym cfgC7w BASE_KNIGHT_MOVES .v n₁
        (initSymState cfgC7w BASE_KNIGHT_MOVES .v)).2.2.map frameCore =
        (iterSym cfgC7w BASE_KNIGHT_MOVES .v n₂
          (initSymState cfgC7w BASE_KNIGHT_MOVES .v)).2.2.map frameCore →
      (iterSym cfgC7w BASE_KNIGHT_MOVES .v n₁
        (initSymState cfgC7w BASE_KNIGHT_MOVES .v)).1 =
        (iterSym cfgC7w BASE_KNIGHT_MOVES .v n₂
          (initSymState cfgC7w BASE_KNIGHT_MOVES .v)).1) :=
  C7_no_residue cfgC7w BASE_KNIGHT_MOVES .v (by decide) (by decide)
    (by decide) (by decide) (by decide)
